import Mathlib

/-!
Shallow embedding of the balance & settlement engine of the share-expenses
repository (source file: the calculations module, functions
`calculateSplits`, `calculateUserBalances`, `calculateSettlements`).

Modelling choices:
* JS numbers are modelled as exact rationals `ℚ`.  A JS `NaN` (which arises
  when an absent record key is read and used in arithmetic, since
  `undefined + x = NaN`) is modelled as `none` in the value type
  `JNum := Option ℚ`.
* A JS `Record<string, number>` is modelled as an association list in
  insertion order; assignment to an existing key updates it in place,
  assignment to a fresh key appends at the end, exactly as JS object keys
  behave.  `Object.entries` is the list itself.
* The stable sort used by `Array.prototype.sort` with the numeric comparator
  `(a, b) => b.amount - a.amount` is modelled by a stable descending
  insertion sort.
* The `while` loop of `calculateSettlements` is modelled by a structurally
  recursive function with an explicit fuel parameter; the fuel
  `creditors.length + debtors.length` is proved sufficient (claim C9).
-/

attribute [local semireducible] Rat.mul Rat.inv Rat.add Rat.sub

/-- Split mode of an expense: `'equal' | 'custom'`. -/
inductive SplitType where
  | equal : SplitType
  | custom : SplitType
deriving DecidableEq, Repr

/-- Lifecycle status of an expense: `'pending' | 'settled'`. -/
inductive ExpenseStatus where
  | pending : ExpenseStatus
  | settled : ExpenseStatus
deriving DecidableEq, Repr

/-- The `Expense` interface of the source (`types/index.ts`). -/
structure Expense where
  id : String
  description : String
  amount : ℚ
  paidBy : String
  participants : List String
  splitType : SplitType
  customSplits : Option (List (String × ℚ))
  date : String
  status : ExpenseStatus
deriving DecidableEq, Repr

/-- The `User` interface of the source. -/
structure User where
  id : String
  name : String
  color : String
deriving DecidableEq, Repr

/-- The `Settlement` interface of the source; `from_` and `to_` model the
fields `from` and `to` (Lean keywords). -/
structure Settlement where
  from_ : String
  to_ : String
  amount : ℚ
deriving DecidableEq, Repr

/-- A JS number that may be `NaN` (`none`). -/
abbrev JNum := Option ℚ

/-- A JS `Record<string, number>` whose stored values may be `NaN`,
as an association list in key-insertion order. -/
abbrev BalRec := List (String × JNum)

/-- Lookup of a key in an association list (first matching entry). -/
def recLookup {α : Type} : List (String × α) → String → Option α
  | [], _ => none
  | (k, v) :: r, key => if k = key then some v else recLookup r key

/-- JS object assignment `m[key] = v`: update in place if the key exists,
append at the end otherwise. -/
def recSet {α : Type} : List (String × α) → String → α → List (String × α)
  | [], key, v => [(key, v)]
  | (k, w) :: r, key, v =>
      if k = key then (k, v) :: r else (k, w) :: recSet r key v

/-- JS object read `m[key]` used in arithmetic: an absent key gives
`undefined`, which behaves like `NaN` (`none`) in additions. -/
def jsIndex (m : BalRec) (key : String) : JNum :=
  match recLookup m key with
  | some v => v
  | none => none

/-- JS addition: `NaN` (and `undefined`) is absorbing. -/
def jsAdd : JNum → JNum → JNum
  | some a, some b => some (a + b)
  | _, _ => none

/-- JS subtraction: `NaN` (and `undefined`) is absorbing. -/
def jsSub : JNum → JNum → JNum
  | some a, some b => some (a - b)
  | _, _ => none

/-- The statement `m[key] += x` of the source. -/
def recAddAt (m : BalRec) (key : String) (x : ℚ) : BalRec :=
  recSet m key (jsAdd (jsIndex m key) (some x))

/-- The statement `m[key] -= x` of the source. -/
def recSubAt (m : BalRec) (key : String) (x : ℚ) : BalRec :=
  recSet m key (jsSub (jsIndex m key) (some x))

/-- `calculateSplits` of the source.  Equal mode: reduce over
`expense.participants` building `{...acc, [userId]: splitAmount}` with
`splitAmount = expense.amount / expense.participants.length`; custom mode:
`expense.customSplits || {}`. -/
def calculateSplits (expense : Expense) : List (String × ℚ) :=
  if expense.splitType = SplitType.equal then
    expense.participants.foldl
      (fun acc userId =>
        recSet acc userId (expense.amount / (expense.participants.length : ℚ)))
      []
  else
    expense.customSplits.getD []

/-- Initialization step of `calculateUserBalances`:
`users.forEach(user => balances[user.id] = 0)`. -/
def initBalances (users : List User) : BalRec :=
  users.foldl (fun acc user => recSet acc user.id (some (0 : ℚ))) []

/-- Body of the fold of `calculateUserBalances` over one pending expense:
credit the payer with the full amount, then debit every entry of the
expense's splits. -/
def applyExpense (balances : BalRec) (expense : Expense) : BalRec :=
  let splits := calculateSplits expense
  let credited := recAddAt balances expense.paidBy expense.amount
  splits.foldl (fun b p => recSubAt b p.1 p.2) credited

/-- `calculateUserBalances` of the source: initialize every roster member to
`0`, keep only `pending` expenses, and fold `applyExpense` over them. -/
def calculateUserBalances (expenses : List Expense) (users : List User) : BalRec :=
  let pendingExpenses := expenses.filter (fun e => e.status == ExpenseStatus.pending)
  pendingExpenses.foldl applyExpense (initBalances users)

/-- The tolerance `0.01` threaded through `calculateSettlements`. -/
def eps : ℚ := 1 / 100

/-- Creditor extraction of `calculateSettlements`: entries with
`balance > 0.01`, keeping the balance as the stored amount.  A `NaN`
balance satisfies neither comparison and is skipped. -/
def creditorsOf (balances : BalRec) : List (String × ℚ) :=
  balances.filterMap
    (fun p =>
      match p.2 with
      | some v => if eps < v then some (p.1, v) else none
      | none => none)

/-- Debtor extraction of `calculateSettlements`: entries with
`balance < -0.01`, storing `-balance`. -/
def debtorsOf (balances : BalRec) : List (String × ℚ) :=
  balances.filterMap
    (fun p =>
      match p.2 with
      | some v => if v < -eps then some (p.1, -v) else none
      | none => none)

/-- Stable insertion of one entry into a list sorted descending by amount:
the entry goes after every earlier entry with an amount ≥ its own. -/
def insertDesc (p : String × ℚ) : List (String × ℚ) → List (String × ℚ)
  | [] => [p]
  | q :: r => if q.2 < p.2 then p :: q :: r else q :: insertDesc p r

/-- Stable descending sort by amount, modelling
`arr.sort((a, b) => b.amount - a.amount)`. -/
def sortDesc : List (String × ℚ) → List (String × ℚ)
  | [] => []
  | p :: r => insertDesc p (sortDesc r)

/-- The matching `while` loop of `calculateSettlements`, with an explicit
fuel bound on the number of iterations (`none` = fuel exhausted before the
loop exited).  Each iteration: `settleAmount = min(creditor, debtor)`, emit
a settlement when `settleAmount > 0.01`, decrement both sides, and advance
past any side whose remaining amount is `< 0.01`. -/
def settleLoopF : Nat → List (String × ℚ) → List (String × ℚ) → Option (List Settlement)
  | _, [], _ => some []
  | _, _ :: _, [] => some []
  | 0, _ :: _, _ :: _ => none
  | fuel + 1, c :: cs, d :: ds =>
      let settleAmount := min c.2 d.2
      let cs2 := if c.2 - settleAmount < eps then cs else (c.1, c.2 - settleAmount) :: cs
      let ds2 := if d.2 - settleAmount < eps then ds else (d.1, d.2 - settleAmount) :: ds
      match settleLoopF fuel cs2 ds2 with
      | none => none
      | some rest =>
          some (if eps < settleAmount then ⟨d.1, c.1, settleAmount⟩ :: rest else rest)

/-- `calculateSettlements` of the source: split the balances into creditors
and debtors, sort both descending by amount, and run the matching loop.
The fuel `creditors.length + debtors.length` is proved sufficient
(claim C9), so the `getD []` default is never taken. -/
def calculateSettlements (balances : BalRec) : List Settlement :=
  let creditors := sortDesc (creditorsOf balances)
  let debtors := sortDesc (debtorsOf balances)
  (settleLoopF (creditors.length + debtors.length) creditors debtors).getD []

/-! ### Derived quantities used to state the claims -/

/-- Sum of the values of a balances record (`none` = `NaN` is absorbing). -/
def jsSumValues (m : BalRec) : JNum :=
  m.foldr (fun p acc => jsAdd p.2 acc) (some 0)

/-- Total of the shares of one expense's split mapping. -/
def splitsTotal (e : Expense) : ℚ :=
  ((calculateSplits e).map Prod.snd).sum

/-- Total debited from participant `k` by the entries of a split list. -/
def debitL (l : List (String × ℚ)) (k : String) : ℚ :=
  ((l.filter (fun p => p.1 == k)).map Prod.snd).sum

/-- Amount credited to `k` by one expense (the full amount if `k` paid). -/
def credit (e : Expense) (k : String) : ℚ :=
  if e.paidBy = k then e.amount else 0

/-- Net contribution of one expense to `k`'s balance. -/
def contrib (e : Expense) (k : String) : ℚ :=
  credit e k - debitL (calculateSplits e) k

/-- Does one expense touch key `k` (as payer or in its split entries)? -/
def touchesB (e : Expense) (k : String) : Bool :=
  e.paidBy == k || (calculateSplits e).any (fun p => p.1 == k)

/-- Net contribution of a list of expenses to `k`'s balance. -/
def netDelta (es : List Expense) (k : String) : ℚ :=
  (es.map (fun e => contrib e k)).sum

/-- Number of creditors (balance `> ε`) of a balances record. -/
def numCreditors (balances : BalRec) : Nat :=
  (creditorsOf balances).length

/-- Number of debtors (balance `< -ε`) of a balances record. -/
def numDebtors (balances : BalRec) : Nat :=
  (debtorsOf balances).length

/-- Application of a settlement list to a balances record exactly as the
claim words it: subtract each amount from the `from` participant's balance
and add it to the `to` participant's balance. -/
def applySettlementsSpec (balances : BalRec) (ss : List Settlement) : BalRec :=
  ss.foldl (fun m s => recAddAt (recSubAt m s.from_ s.amount) s.to_ s.amount) balances

/-- Application of a settlement list with the orientation that models the
actual money flow (the debtor `from` pays, so their negative balance moves
up toward zero; the creditor `to` is paid, so their positive balance moves
down toward zero). -/
def applySettlementsRev (balances : BalRec) (ss : List Settlement) : BalRec :=
  ss.foldl (fun m s => recSubAt (recAddAt m s.from_ s.amount) s.to_ s.amount) balances

/-- Total amount participant `k` receives in a settlement list. -/
def recvTotal (k : String) (ss : List Settlement) : ℚ :=
  ((ss.filter (fun s => s.to_ == k)).map Settlement.amount).sum

/-- Total amount participant `k` pays in a settlement list. -/
def paysTotal (k : String) (ss : List Settlement) : ℚ :=
  ((ss.filter (fun s => s.from_ == k)).map Settlement.amount).sum

/-! ### Association-list lemmas -/

theorem recLookup_recSet_self {α : Type} (r : List (String × α)) (key : String) (v : α) :
    recLookup (recSet r key v) key = some v := by
  induction r with
  | nil => simp [recSet, recLookup]
  | cons p r ih =>
    obtain ⟨a, b⟩ := p
    by_cases h : a = key
    · simp [recSet, h, recLookup]
    · simp [recSet, h, recLookup, ih]

theorem recLookup_recSet_ne {α : Type} (r : List (String × α)) (key k : String) (v : α)
    (h : k ≠ key) : recLookup (recSet r key v) k = recLookup r k := by
  have hke : ¬ key = k := fun hh => h hh.symm
  induction r with
  | nil => simp [recSet, recLookup, hke]
  | cons p r ih =>
    obtain ⟨a, b⟩ := p
    by_cases ha : a = key
    · subst ha
      simp [recSet, recLookup, hke]
    · simp [recSet, if_neg ha, recLookup, ih]

theorem map_fst_recSet_of_mem {α : Type} (r : List (String × α)) (key : String) (v : α)
    (h : key ∈ r.map Prod.fst) : (recSet r key v).map Prod.fst = r.map Prod.fst := by
  induction r with
  | nil => simp at h
  | cons p r ih =>
    obtain ⟨a, b⟩ := p
    by_cases ha : a = key
    · simp [recSet, ha]
    · simp only [List.map_cons, List.mem_cons] at h
      rcases h with h | h
      · exact absurd h.symm ha
      · simp [recSet, if_neg ha, ih h]


theorem mem_map_fst_recSet {α : Type} (r : List (String × α)) (key k : String) (v : α) :
    k ∈ (recSet r key v).map Prod.fst ↔ k ∈ r.map Prod.fst ∨ k = key := by
  induction r with
  | nil => simp [recSet]
  | cons p r ih =>
    obtain ⟨a, b⟩ := p
    by_cases ha : a = key
    · subst ha
      simp [recSet]
      tauto

    · simp only [recSet, if_neg ha, List.map_cons, List.mem_cons, ih]
      tauto

theorem recLookup_mem {α : Type} (r : List (String × α)) (k : String) (x : α)
    (h : recLookup r k = some x) : (k, x) ∈ r := by
  induction r with
  | nil => simp [recLookup] at h
  | cons p r ih =>
    obtain ⟨a, b⟩ := p
    by_cases ha : a = k
    · subst ha
      simp [recLookup] at h
      simp [h]
    · simp [recLookup, ha] at h
      exact List.mem_cons_of_mem _ (ih h)

theorem recLookup_isSome_iff {α : Type} (r : List (String × α)) (k : String) :
    (recLookup r k).isSome ↔ k ∈ r.map Prod.fst := by
  induction r with
  | nil => simp [recLookup]
  | cons p r ih =>
    obtain ⟨a, b⟩ := p
    by_cases ha : a = k
    · subst ha; simp [recLookup]
    · simp [recLookup, ha, ih, Ne.symm ha]

theorem recLookup_eq_none_iff {α : Type} (r : List (String × α)) (k : String) :
    recLookup r k = none ↔ k ∉ r.map Prod.fst := by
  rw [← recLookup_isSome_iff]
  cases recLookup r k <;> simp

theorem recLookup_eq_of_mem_nodup {α : Type} (r : List (String × α)) (k : String) (x : α)
    (hnd : (r.map Prod.fst).Nodup) (h : (k, x) ∈ r) : recLookup r k = some x := by
  induction r with
  | nil => simp at h
  | cons p r ih =>
    obtain ⟨a, b⟩ := p
    simp only [List.map_cons, List.nodup_cons] at hnd
    rcases List.mem_cons.1 h with h | h
    · injection h with h1 h2
      subst h1
      subst h2
      simp [recLookup]
    · have hak : a ≠ k := by
        rintro rfl
        exact hnd.1 (List.mem_map_of_mem Prod.fst h)
      simp [recLookup, hak, ih hnd.2 h]

theorem recSet_append_of_not_mem {α : Type} (r : List (String × α)) (key : String) (v : α)
    (h : key ∉ r.map Prod.fst) : recSet r key v = r ++ [(key, v)] := by
  induction r with
  | nil => simp [recSet]
  | cons p r ih =>
    obtain ⟨a, b⟩ := p
    simp only [List.map_cons, List.mem_cons] at h
    push_neg at h
    simp [recSet, Ne.symm h.1, ih h.2]

theorem mem_recSet {α : Type} (r : List (String × α)) (key : String) (v : α)
    (p : String × α) : p ∈ recSet r key v → p ∈ r ∨ p = (key, v) := by
  induction r with
  | nil => intro h; simp [recSet] at h; simp [h]
  | cons q r ih =>
    obtain ⟨a, b⟩ := q
    intro h
    by_cases ha : a = key
    · subst ha
      simp only [recSet, if_pos rfl] at h
      rcases List.mem_cons.1 h with h | h
      · exact Or.inr h
      · exact Or.inl (List.mem_cons_of_mem _ h)
    · simp only [recSet, if_neg ha] at h
      rcases List.mem_cons.1 h with h | h
      · exact Or.inl (h ▸ List.mem_cons_self _ _)
      · rcases ih h with h2 | h2
        · exact Or.inl (List.mem_cons_of_mem _ h2)
        · exact Or.inr h2

/-- Generic: folding constant-valued `recSet` over a list, key membership. -/
theorem mem_keys_foldl_recSet {α β : Type} (g : β → String) (c : α) (l : List β)
    (k : String) :
    ∀ acc : List (String × α),
      (k ∈ (l.foldl (fun a x => recSet a (g x) c) acc).map Prod.fst ↔
        k ∈ acc.map Prod.fst ∨ k ∈ l.map g) := by
  induction l with
  | nil => intro acc; simp
  | cons x l ih =>
    intro acc
    simp only [List.foldl_cons, ih, mem_map_fst_recSet, List.map_cons, List.mem_cons]
    tauto

/-- Generic: folding constant-valued `recSet` over a list, lookups. -/
theorem recLookup_foldl_recSet {α β : Type} (g : β → String) (c : α) (l : List β)
    (k : String) :
    ∀ acc : List (String × α),
      recLookup (l.foldl (fun a x => recSet a (g x) c) acc) k =
        if k ∈ l.map g then some c else recLookup acc k := by
  induction l with
  | nil => intro acc; simp
  | cons x l ih =>
    intro acc
    simp only [List.foldl_cons, ih, List.map_cons, List.mem_cons]
    by_cases hl : k ∈ l.map g
    · simp [hl]
    · by_cases hx : k = g x
      · simp [hl, hx, recLookup_recSet_self]
      · simp [hl, hx, recLookup_recSet_ne _ _ _ _ hx]

/-- Generic: folding constant-valued `recSet` over a list with fresh nodup
keys appends the corresponding entries in order. -/
theorem foldl_recSet_const_eq_append {α β : Type} (g : β → String) (c : α) (l : List β)
    (hnd : (l.map g).Nodup) :
    ∀ acc : List (String × α), (∀ x ∈ l, g x ∉ acc.map Prod.fst) →
      l.foldl (fun a x => recSet a (g x) c) acc = acc ++ l.map (fun x => (g x, c)) := by
  induction l with
  | nil => intro acc _; simp
  | cons x l ih =>
    intro acc hacc
    simp only [List.map_cons, List.nodup_cons] at hnd
    simp only [List.foldl_cons]
    rw [recSet_append_of_not_mem _ _ _ (hacc x (List.mem_cons_self _ _))]
    rw [ih hnd.2]
    · simp
    · intro y hy
      simp only [List.map_append, List.map_cons, List.map_nil, List.mem_append,
        List.mem_singleton]
      push_neg
      refine ⟨hacc y (List.mem_cons_of_mem _ hy), ?_⟩
      intro hgy
      exact hnd.1 (hgy ▸ List.mem_map_of_mem g hy)

/-! ### Finite-valued balance records and their sums -/

/-- Every stored value of the record is an actual number (not `NaN`). -/
def finiteVals (m : BalRec) : Prop := ∀ p ∈ m, p.2 ≠ none

/-- The rational sum of the values of a finite-valued record. -/
def realSum (m : BalRec) : ℚ := (m.map (fun p => p.2.getD 0)).sum

theorem jsSumValues_eq_realSum (m : BalRec) (hf : finiteVals m) :
    jsSumValues m = some (realSum m) := by
  induction m with
  | nil => simp [jsSumValues, realSum]
  | cons p m ih =>
    have hp : p.2 ≠ none := hf p (List.mem_cons_self _ _)
    have hm : finiteVals m := fun q hq => hf q (List.mem_cons_of_mem _ hq)
    obtain ⟨v, hv⟩ := Option.ne_none_iff_exists'.1 hp
    calc jsSumValues (p :: m) = jsAdd p.2 (jsSumValues m) := rfl
    _ = jsAdd (some v) (some (realSum m)) := by rw [hv, ih hm]
    _ = some (v + realSum m) := rfl
    _ = some (realSum (p :: m)) := by simp [realSum, hv]

/-- Unfolding of `m[k] += x` on a cons cell. -/
theorem recAddAt_cons (a : String) (b : JNum) (m : BalRec) (k : String) (x : ℚ) :
    recAddAt ((a, b) :: m) k x =
      if a = k then (a, jsAdd b (some x)) :: m else (a, b) :: recAddAt m k x := by
  by_cases h : a = k <;> simp [recAddAt, recSet, jsIndex, recLookup, h]

/-- Unfolding of `m[k] -= x` on a cons cell. -/
theorem recSubAt_cons (a : String) (b : JNum) (m : BalRec) (k : String) (x : ℚ) :
    recSubAt ((a, b) :: m) k x =
      if a = k then (a, jsSub b (some x)) :: m else (a, b) :: recSubAt m k x := by
  by_cases h : a = k <;> simp [recSubAt, recSet, jsIndex, recLookup, h]

theorem recLookup_recAddAt_self (m : BalRec) (key : String) (x : ℚ) :
    recLookup (recAddAt m key x) key = some (jsAdd (jsIndex m key) (some x)) := by
  simp [recAddAt, recLookup_recSet_self]

theorem recLookup_recAddAt_ne (m : BalRec) (key k : String) (x : ℚ) (h : k ≠ key) :
    recLookup (recAddAt m key x) k = recLookup m k := by
  simp [recAddAt, recLookup_recSet_ne _ _ _ _ h]

theorem recLookup_recSubAt_self (m : BalRec) (key : String) (x : ℚ) :
    recLookup (recSubAt m key x) key = some (jsSub (jsIndex m key) (some x)) := by
  simp [recSubAt, recLookup_recSet_self]

theorem recLookup_recSubAt_ne (m : BalRec) (key k : String) (x : ℚ) (h : k ≠ key) :
    recLookup (recSubAt m key x) k = recLookup m k := by
  simp [recSubAt, recLookup_recSet_ne _ _ _ _ h]

/-- Lookup after debiting every entry of a split list. -/
theorem recLookup_foldl_recSubAt (l : List (String × ℚ)) :
    ∀ (m : BalRec) (k : String),
      recLookup (l.foldl (fun b p => recSubAt b p.1 p.2) m) k =
        match recLookup m k with
        | some (some v) => some (some (v - debitL l k))
        | some none => some none
        | none => if l.any (fun p => p.1 == k) then some none else none := by
  induction l with
  | nil =>
    intro m k
    cases hL : recLookup m k with
    | none => simp [debitL, hL]
    | some w => cases w <;> simp [debitL, hL]
  | cons p l ih =>
    intro m k
    rw [List.foldl_cons, ih]
    have hany : ((p :: l).any fun q => q.1 == k) = ((p.1 == k) || l.any fun q => q.1 == k) := by
      simp
    by_cases hp : p.1 = k
    · have hb : (p.1 == k) = true := by simp [hp]
      have hsub : recLookup (recSubAt m p.1 p.2) k =
          some (jsSub (jsIndex m k) (some p.2)) := by
        rw [← hp]; exact recLookup_recSubAt_self m p.1 p.2
      rw [hsub]
      cases hL : recLookup m k with
      | none => simp [jsIndex, hL, jsSub, hany, hb]
      | some w =>
        cases w with
        | none => simp [jsIndex, hL, jsSub]
        | some v => simp [jsIndex, hL, jsSub, debitL, List.filter_cons, hb, sub_sub]
    · have hb : (p.1 == k) = false := by simp [hp]
      have hsub : recLookup (recSubAt m p.1 p.2) k = recLookup m k :=
        recLookup_recSubAt_ne m p.1 k p.2 (fun hh => hp hh.symm)
      rw [hsub]
      cases hL : recLookup m k with
      | none =>
        have hor : (p.1 == k || l.any fun q => q.1 == k) = (l.any fun q => q.1 == k) := by
          rw [hb]; simp
        simp only [hL]
        rw [hany, hor]
      | some w => cases w <;> simp [hL, debitL, List.filter_cons, hb]

/-- Lookup after folding one expense into the balances. -/
theorem recLookup_applyExpense (m : BalRec) (e : Expense) (k : String) :
    recLookup (applyExpense m e) k =
      match recLookup m k with
      | some (some v) => some (some (v + contrib e k))
      | some none => some none
      | none => if touchesB e k then some none else none := by
  simp only [applyExpense]
  rw [recLookup_foldl_recSubAt]
  by_cases hp : k = e.paidBy
  · have hb : (e.paidBy == k) = true := by simp [hp]
    have hadd : recLookup (recAddAt m e.paidBy e.amount) k =
        some (jsAdd (jsIndex m k) (some e.amount)) := by
      rw [hp]; exact recLookup_recAddAt_self m e.paidBy e.amount
    rw [hadd]
    cases hL : recLookup m k with
    | none => simp [jsIndex, hL, jsAdd, touchesB, hb]
    | some w =>
      cases w with
      | none => simp [jsIndex, hL, jsAdd]
      | some v =>
        have hc : v + e.amount - debitL (calculateSplits e) k = v + contrib e k := by
          rw [contrib, credit, if_pos hp.symm]; ring
        simp [jsIndex, hL, jsAdd, hc]
  · rw [recLookup_recAddAt_ne m e.paidBy k e.amount hp]
    have hb : (e.paidBy == k) = false := by
      simp; exact fun hh => hp hh.symm
    cases hL : recLookup m k with
    | none =>
      have ht : touchesB e k = (calculateSplits e).any (fun p => p.1 == k) := by
        simp [touchesB, hb]
      simp only [hL]
      rw [ht]
    | some w =>
      cases w with
      | none => simp [hL]
      | some v =>
        have hc : v - debitL (calculateSplits e) k = v + contrib e k := by
          rw [contrib, credit, if_neg (fun hh => hp hh.symm)]; ring
        simp [hL, hc]

/-- Lookup after folding a list of expenses into the balances. -/
theorem recLookup_foldl_applyExpense (es : List Expense) :
    ∀ (m : BalRec) (k : String),
      recLookup (es.foldl applyExpense m) k =
        match recLookup m k with
        | some (some v) => some (some (v + netDelta es k))
        | some none => some none
        | none => if es.any (fun e => touchesB e k) then some none else none := by
  induction es with
  | nil =>
    intro m k
    cases hL : recLookup m k with
    | none => simp [netDelta, hL]
    | some w => cases w <;> simp [netDelta, hL]
  | cons e es ih =>
    intro m k
    rw [List.foldl_cons, ih, recLookup_applyExpense]
    cases hL : recLookup m k with
    | none =>
      cases ht : touchesB e k <;> simp [ht, netDelta]
    | some w =>
      cases w with
      | none => simp
      | some v => simp [netDelta, add_assoc]

theorem recLookup_initBalances (users : List User) (k : String) :
    recLookup (initBalances users) k =
      if k ∈ users.map User.id then some (some (0 : ℚ)) else none := by
  have h := recLookup_foldl_recSet User.id (some (0 : ℚ)) users k []
  simpa [initBalances, recLookup] using h

/-- Denotation of `calculateUserBalances`: the balance of a roster member is
the net contribution of the pending expenses; a non-member touched by some
pending expense ends as `NaN`; anyone else is absent. -/
theorem recLookup_calculateUserBalances (expenses : List Expense) (users : List User)
    (k : String) :
    recLookup (calculateUserBalances expenses users) k =
      if k ∈ users.map User.id then
        some (some (netDelta (expenses.filter (fun e => e.status == ExpenseStatus.pending)) k))
      else if (expenses.filter (fun e => e.status == ExpenseStatus.pending)).any
          (fun e => touchesB e k) then some none
      else none := by
  simp only [calculateUserBalances]
  rw [recLookup_foldl_applyExpense, recLookup_initBalances]
  by_cases hk : k ∈ users.map User.id <;> simp [hk]

/-! ### Keys, finiteness and sums through the balance updates -/

theorem recAddAt_props (m : BalRec) (k : String) (x : ℚ)
    (hk : k ∈ m.map Prod.fst) (hf : finiteVals m) :
    (recAddAt m k x).map Prod.fst = m.map Prod.fst ∧
      finiteVals (recAddAt m k x) ∧
      realSum (recAddAt m k x) = realSum m + x := by
  induction m with
  | nil => simp at hk
  | cons p m ih =>
    obtain ⟨a, b⟩ := p
    have hb : b ≠ none := hf (a, b) (List.mem_cons_self _ _)
    obtain ⟨v, hv⟩ := Option.ne_none_iff_exists'.1 hb
    subst hv
    have hfm : finiteVals m := fun q hq => hf q (List.mem_cons_of_mem _ hq)
    by_cases ha : a = k
    · rw [recAddAt_cons, if_pos ha]
      refine ⟨by simp, ?_, ?_⟩
      · intro q hq
        rcases List.mem_cons.1 hq with h | h
        · rw [h]; simp [jsAdd]
        · exact hf q (List.mem_cons_of_mem _ h)
      · simp [realSum, jsAdd]
        ring
    · have hk2 : k ∈ m.map Prod.fst := by
        rw [List.map_cons] at hk
        rcases List.mem_cons.1 hk with h | h
        · exact absurd h.symm ha
        · exact h
      obtain ⟨h1, h2, h3⟩ := ih hk2 hfm
      rw [recAddAt_cons, if_neg ha]
      refine ⟨by simp [h1], ?_, ?_⟩
      · intro q hq
        rcases List.mem_cons.1 hq with h | h
        · rw [h]; simp
        · exact h2 q h
      · simp only [realSum, List.map_cons, List.sum_cons] at h3 ⊢
        rw [h3]
        ring

theorem recSubAt_props (m : BalRec) (k : String) (x : ℚ)
    (hk : k ∈ m.map Prod.fst) (hf : finiteVals m) :
    (recSubAt m k x).map Prod.fst = m.map Prod.fst ∧
      finiteVals (recSubAt m k x) ∧
      realSum (recSubAt m k x) = realSum m - x := by
  induction m with
  | nil => simp at hk
  | cons p m ih =>
    obtain ⟨a, b⟩ := p
    have hb : b ≠ none := hf (a, b) (List.mem_cons_self _ _)
    obtain ⟨v, hv⟩ := Option.ne_none_iff_exists'.1 hb
    subst hv
    have hfm : finiteVals m := fun q hq => hf q (List.mem_cons_of_mem _ hq)
    by_cases ha : a = k
    · rw [recSubAt_cons, if_pos ha]
      refine ⟨by simp, ?_, ?_⟩
      · intro q hq
        rcases List.mem_cons.1 hq with h | h
        · rw [h]; simp [jsSub]
        · exact hf q (List.mem_cons_of_mem _ h)
      · simp [realSum, jsSub]
        ring
    · have hk2 : k ∈ m.map Prod.fst := by
        rw [List.map_cons] at hk
        rcases List.mem_cons.1 hk with h | h
        · exact absurd h.symm ha
        · exact h
      obtain ⟨h1, h2, h3⟩ := ih hk2 hfm
      rw [recSubAt_cons, if_neg ha]
      refine ⟨by simp [h1], ?_, ?_⟩
      · intro q hq
        rcases List.mem_cons.1 hq with h | h
        · rw [h]; simp
        · exact h2 q h
      · simp only [realSum, List.map_cons, List.sum_cons] at h3 ⊢
        rw [h3]
        ring

theorem foldl_recSubAt_props (l : List (String × ℚ)) :
    ∀ m : BalRec, (∀ p ∈ l, p.1 ∈ m.map Prod.fst) → finiteVals m →
      ((l.foldl (fun b p => recSubAt b p.1 p.2) m).map Prod.fst = m.map Prod.fst ∧
        finiteVals (l.foldl (fun b p => recSubAt b p.1 p.2) m) ∧
        realSum (l.foldl (fun b p => recSubAt b p.1 p.2) m) =
          realSum m - (l.map Prod.snd).sum) := by
  induction l with
  | nil =>
    intro m _ hf
    exact ⟨rfl, hf, by simp⟩
  | cons p l ih =>
    intro m hmem hf
    obtain ⟨h1, h2, h3⟩ := recSubAt_props m p.1 p.2 (hmem p (List.mem_cons_self _ _)) hf
    obtain ⟨g1, g2, g3⟩ :=
      ih (recSubAt m p.1 p.2)
        (fun q hq => h1 ▸ hmem q (List.mem_cons_of_mem _ hq)) h2
    refine ⟨by rw [List.foldl_cons, g1, h1], by rw [List.foldl_cons]; exact g2, ?_⟩
    rw [List.foldl_cons, g3, h3]
    simp only [List.map_cons, List.sum_cons]
    ring

theorem applyExpense_props (m : BalRec) (e : Expense)
    (hpaid : e.paidBy ∈ m.map Prod.fst)
    (hsplit : ∀ p ∈ calculateSplits e, p.1 ∈ m.map Prod.fst)
    (hf : finiteVals m) :
    (applyExpense m e).map Prod.fst = m.map Prod.fst ∧
      finiteVals (applyExpense m e) ∧
      realSum (applyExpense m e) = realSum m + (e.amount - splitsTotal e) := by
  obtain ⟨h1, h2, h3⟩ := recAddAt_props m e.paidBy e.amount hpaid hf
  obtain ⟨g1, g2, g3⟩ :=
    foldl_recSubAt_props (calculateSplits e) (recAddAt m e.paidBy e.amount)
      (fun p hp => h1 ▸ hsplit p hp) h2
  refine ⟨?_, ?_, ?_⟩
  · show ((calculateSplits e).foldl (fun b p => recSubAt b p.1 p.2)
      (recAddAt m e.paidBy e.amount)).map Prod.fst = m.map Prod.fst
    rw [g1, h1]
  · exact g2
  · show realSum ((calculateSplits e).foldl (fun b p => recSubAt b p.1 p.2)
      (recAddAt m e.paidBy e.amount)) = realSum m + (e.amount - splitsTotal e)
    rw [g3, h3, splitsTotal]
    ring

theorem foldl_applyExpense_props (es : List Expense) :
    ∀ m : BalRec,
      (∀ e ∈ es, e.paidBy ∈ m.map Prod.fst ∧
        ∀ p ∈ calculateSplits e, p.1 ∈ m.map Prod.fst) → finiteVals m →
      ((es.foldl applyExpense m).map Prod.fst = m.map Prod.fst ∧
        finiteVals (es.foldl applyExpense m) ∧
        realSum (es.foldl applyExpense m) =
          realSum m + (es.map (fun e => e.amount - splitsTotal e)).sum) := by
  induction es with
  | nil =>
    intro m _ hf
    exact ⟨rfl, hf, by simp⟩
  | cons e es ih =>
    intro m hmem hf
    obtain ⟨hp, hs⟩ := hmem e (List.mem_cons_self _ _)
    obtain ⟨h1, h2, h3⟩ := applyExpense_props m e hp hs hf
    obtain ⟨g1, g2, g3⟩ :=
      ih (applyExpense m e)
        (fun f hfm =>
          ⟨h1 ▸ (hmem f (List.mem_cons_of_mem _ hfm)).1,
            fun p hps => h1 ▸ (hmem f (List.mem_cons_of_mem _ hfm)).2 p hps⟩) h2
    refine ⟨by rw [List.foldl_cons, g1, h1], by rw [List.foldl_cons]; exact g2, ?_⟩
    rw [List.foldl_cons, g3, h3]
    simp only [List.map_cons, List.sum_cons]
    ring

/-! ### The initial balances record -/

theorem initBalances_vals (users : List User) :
    ∀ p ∈ initBalances users, p.2 = some (0 : ℚ) := by
  have hgen : ∀ (l : List User) (acc : BalRec), (∀ p ∈ acc, p.2 = some (0 : ℚ)) →
      ∀ p ∈ l.foldl (fun a u => recSet a u.id (some (0 : ℚ))) acc, p.2 = some (0 : ℚ) := by
    intro l
    induction l with
    | nil => intro acc hacc p hp; exact hacc p hp
    | cons u l ih =>
      intro acc hacc p hp
      refine ih (recSet acc u.id (some 0)) ?_ p hp
      intro q hq
      rcases mem_recSet acc u.id (some 0) q hq with h | h
      · exact hacc q h
      · rw [h]
  intro p hp
  exact hgen users [] (by simp) p hp

theorem finiteVals_initBalances (users : List User) : finiteVals (initBalances users) := by
  intro p hp
  rw [initBalances_vals users p hp]
  simp

theorem realSum_initBalances (users : List User) : realSum (initBalances users) = 0 := by
  refine List.sum_eq_zero ?_
  intro x hx
  rcases List.mem_map.1 hx with ⟨p, hp, hpx⟩
  rw [← hpx, initBalances_vals users p hp]
  simp

theorem mem_keys_initBalances (users : List User) (k : String) :
    k ∈ (initBalances users).map Prod.fst ↔ k ∈ users.map User.id := by
  have h := mem_keys_foldl_recSet User.id (some (0 : ℚ)) users k []
  simpa [initBalances] using h

/-! ### The split mapping of a single expense -/

theorem calculateSplits_equal_eq_map (e : Expense) (he : e.splitType = SplitType.equal)
    (hnd : e.participants.Nodup) :
    calculateSplits e =
      e.participants.map (fun u => (u, e.amount / (e.participants.length : ℚ))) := by
  have h := foldl_recSet_const_eq_append (fun u : String => u)
    (e.amount / (e.participants.length : ℚ)) e.participants
    (by simpa using hnd) [] (by simp)
  simpa [calculateSplits, he] using h

theorem mem_keys_calculateSplits_equal (e : Expense) (he : e.splitType = SplitType.equal)
    (k : String) :
    k ∈ (calculateSplits e).map Prod.fst ↔ k ∈ e.participants := by
  have h := mem_keys_foldl_recSet (fun u : String => u)
    (e.amount / (e.participants.length : ℚ)) e.participants k []
  simpa [calculateSplits, he] using h

theorem recLookup_calculateSplits_equal (e : Expense) (he : e.splitType = SplitType.equal)
    (k : String) :
    recLookup (calculateSplits e) k =
      if k ∈ e.participants then some (e.amount / (e.participants.length : ℚ)) else none := by
  have h := recLookup_foldl_recSet (fun u : String => u)
    (e.amount / (e.participants.length : ℚ)) e.participants k []
  simpa [calculateSplits, he, recLookup] using h

theorem calculateSplits_custom (e : Expense) (he : e.splitType = SplitType.custom) :
    calculateSplits e = e.customSplits.getD [] := by
  have : ¬ e.splitType = SplitType.equal := by rw [he]; intro hc; cases hc
  simp [calculateSplits, this]

theorem splitsTotal_equal (e : Expense) (he : e.splitType = SplitType.equal)
    (hnd : e.participants.Nodup) (hne : e.participants ≠ []) :
    splitsTotal e = e.amount := by
  rw [splitsTotal, calculateSplits_equal_eq_map e he hnd]
  have hlen : (e.participants.length : ℚ) ≠ 0 := by
    simp [List.length_eq_zero, hne]
  rw [List.map_map]
  have hmc : (Prod.snd ∘ fun u => (u, e.amount / (e.participants.length : ℚ))) =
      fun _ : String => e.amount / (e.participants.length : ℚ) := rfl
  rw [hmc, List.map_const', List.sum_replicate, nsmul_eq_mul]
  field_simp

/-! ### The settlement loop -/

theorem eps_pos : 0 < eps := by norm_num [eps]

/-- One loop iteration strictly shrinks the combined length of the two
lists: the side achieving the minimum drops to `0 < ε` and is advanced
past. -/
theorem settleLoop_step_bound (c d : String × ℚ) (cs ds : List (String × ℚ)) :
    (if c.2 - min c.2 d.2 < eps then cs else (c.1, c.2 - min c.2 d.2) :: cs).length +
      (if d.2 - min c.2 d.2 < eps then ds else (d.1, d.2 - min c.2 d.2) :: ds).length ≤
      cs.length + ds.length + 1 := by
  rcases le_total c.2 d.2 with hcd | hcd
  · have hc : c.2 - min c.2 d.2 < eps := by
      rw [min_eq_left hcd, sub_self]; exact eps_pos
    rw [if_pos hc]
    by_cases hd : d.2 - min c.2 d.2 < eps
    · rw [if_pos hd]; omega
    · rw [if_neg hd]; simp; omega
  · have hd : d.2 - min c.2 d.2 < eps := by
      rw [min_eq_right hcd, sub_self]; exact eps_pos
    rw [if_pos hd]
    by_cases hc : c.2 - min c.2 d.2 < eps
    · rw [if_pos hc]; omega
    · rw [if_neg hc]; simp [Nat.add_right_comm]

/-- Key membership and amount positivity of every emitted settlement:
the receiver is a creditor key, the payer a debtor key, and the amount
exceeds `ε`. -/
theorem settleLoopF_mem :
    ∀ (fuel : Nat) (cs ds : List (String × ℚ)) (ss : List Settlement),
      settleLoopF fuel cs ds = some ss →
      ∀ s ∈ ss, s.to_ ∈ cs.map Prod.fst ∧ s.from_ ∈ ds.map Prod.fst ∧ eps < s.amount := by
  intro fuel
  induction fuel with
  | zero =>
    intro cs ds ss h s hs
    rcases cs with _ | ⟨c, cs⟩
    · simp [settleLoopF] at h; subst h; simp at hs
    rcases ds with _ | ⟨d, ds⟩
    · simp [settleLoopF] at h; subst h; simp at hs
    simp [settleLoopF] at h
  | succ fuel ih =>
    intro cs ds ss h s hs
    rcases cs with _ | ⟨c, cs⟩
    · simp [settleLoopF] at h; subst h; simp at hs
    rcases ds with _ | ⟨d, ds⟩
    · simp [settleLoopF] at h; subst h; simp at hs
    simp only [settleLoopF] at h
    cases hrec : settleLoopF fuel
        (if c.2 - min c.2 d.2 < eps then cs else (c.1, c.2 - min c.2 d.2) :: cs)
        (if d.2 - min c.2 d.2 < eps then ds else (d.1, d.2 - min c.2 d.2) :: ds) with
    | none => rw [hrec] at h; simp at h
    | some rest =>
      rw [hrec] at h
      simp only [Option.some.injEq] at h
      have hcs2 : ∀ x, x ∈ ((if c.2 - min c.2 d.2 < eps then cs
          else (c.1, c.2 - min c.2 d.2) :: cs).map Prod.fst) →
          x ∈ ((c :: cs).map Prod.fst) := by
        intro x hx
        by_cases hc : c.2 - min c.2 d.2 < eps
        · rw [if_pos hc] at hx
          rw [List.map_cons]
          exact List.mem_cons_of_mem _ hx
        · rw [if_neg hc] at hx
          simpa using hx
      have hds2 : ∀ x, x ∈ ((if d.2 - min c.2 d.2 < eps then ds
          else (d.1, d.2 - min c.2 d.2) :: ds).map Prod.fst) →
          x ∈ ((d :: ds).map Prod.fst) := by
        intro x hx
        by_cases hd : d.2 - min c.2 d.2 < eps
        · rw [if_pos hd] at hx
          rw [List.map_cons]
          exact List.mem_cons_of_mem _ hx
        · rw [if_neg hd] at hx
          simpa using hx
      rw [← h] at hs
      by_cases hemit : eps < min c.2 d.2
      · rw [if_pos hemit] at hs
        rcases List.mem_cons.1 hs with hh | hh
        · subst hh
          refine ⟨by simp, by simp, hemit⟩
        · obtain ⟨h1, h2, h3⟩ := ih _ _ rest hrec s hh
          exact ⟨hcs2 _ h1, hds2 _ h2, h3⟩
      · rw [if_neg hemit] at hs
        obtain ⟨h1, h2, h3⟩ := ih _ _ rest hrec s hs
        exact ⟨hcs2 _ h1, hds2 _ h2, h3⟩

/-- The fuel `cs.length + ds.length` always suffices for the loop to reach
its exit condition. -/
theorem settleLoopF_isSome :
    ∀ (fuel : Nat) (cs ds : List (String × ℚ)),
      cs.length + ds.length ≤ fuel → (settleLoopF fuel cs ds).isSome := by
  intro fuel
  induction fuel with
  | zero =>
    intro cs ds h
    rcases cs with _ | ⟨c, cs⟩
    · simp [settleLoopF]
    rcases ds with _ | ⟨d, ds⟩
    · simp [settleLoopF]
    simp at h
  | succ fuel ih =>
    intro cs ds h
    rcases cs with _ | ⟨c, cs⟩
    · simp [settleLoopF]
    rcases ds with _ | ⟨d, ds⟩
    · simp [settleLoopF]
    simp only [settleLoopF]
    have hb : (if c.2 - min c.2 d.2 < eps then cs
          else (c.1, c.2 - min c.2 d.2) :: cs).length +
        (if d.2 - min c.2 d.2 < eps then ds
          else (d.1, d.2 - min c.2 d.2) :: ds).length ≤ fuel := by
      have hstep := settleLoop_step_bound c d cs ds
      simp only [List.length_cons] at h
      omega
    obtain ⟨rest, hrest⟩ := Option.isSome_iff_exists.1 (ih _ _ hb)
    rw [hrest]
    simp

/-- The loop result does not depend on the fuel, once the fuel is
sufficient. -/
theorem settleLoopF_fuel_irrel :
    ∀ (f1 : Nat) (cs ds : List (String × ℚ)) (f2 : Nat),
      cs.length + ds.length ≤ f1 → cs.length + ds.length ≤ f2 →
      settleLoopF f1 cs ds = settleLoopF f2 cs ds := by
  intro f1
  induction f1 with
  | zero =>
    intro cs ds f2 h1 _
    rcases cs with _ | ⟨c, cs⟩
    · cases f2 <;> simp [settleLoopF]
    rcases ds with _ | ⟨d, ds⟩
    · cases f2 <;> simp [settleLoopF]
    simp at h1
  | succ f1 ih =>
    intro cs ds f2 h1 h2
    rcases cs with _ | ⟨c, cs⟩
    · cases f2 <;> simp [settleLoopF]
    rcases ds with _ | ⟨d, ds⟩
    · cases f2 <;> simp [settleLoopF]
    rcases f2 with _ | f2
    · simp at h2
    simp only [settleLoopF]
    have hstep := settleLoop_step_bound c d cs ds
    simp only [List.length_cons] at h1 h2
    rw [ih _ _ f2 (by omega) (by omega)]

/-- The loop emits at most one settlement per iteration, and there are at
most `cs.length + ds.length - 1` iterations before one side is exhausted. -/
theorem settleLoopF_length :
    ∀ (fuel : Nat) (cs ds : List (String × ℚ)) (ss : List Settlement),
      settleLoopF fuel cs ds = some ss → ss.length ≤ cs.length + ds.length - 1 := by
  intro fuel
  induction fuel with
  | zero =>
    intro cs ds ss h
    rcases cs with _ | ⟨c, cs⟩
    · simp [settleLoopF] at h; subst h; simp
    rcases ds with _ | ⟨d, ds⟩
    · simp [settleLoopF] at h; subst h; simp
    simp [settleLoopF] at h
  | succ fuel ih =>
    intro cs ds ss h
    rcases cs with _ | ⟨c, cs⟩
    · simp [settleLoopF] at h; subst h; simp
    rcases ds with _ | ⟨d, ds⟩
    · simp [settleLoopF] at h; subst h; simp
    simp only [settleLoopF] at h
    cases hrec : settleLoopF fuel
        (if c.2 - min c.2 d.2 < eps then cs else (c.1, c.2 - min c.2 d.2) :: cs)
        (if d.2 - min c.2 d.2 < eps then ds else (d.1, d.2 - min c.2 d.2) :: ds) with
    | none => rw [hrec] at h; simp at h
    | some rest =>
      rw [hrec] at h
      simp only [Option.some.injEq] at h
      have hr := ih _ _ rest hrec
      have hstep := settleLoop_step_bound c d cs ds
      have hlen : ss.length ≤ rest.length + 1 := by
        rw [← h]
        by_cases hemit : eps < min c.2 d.2
        · rw [if_pos hemit]; simp
        · rw [if_neg hemit]; simp
      simp only [List.length_cons]
      omega

/-! ### Received / paid totals of a settlement list -/

theorem recvTotal_nil (k : String) : recvTotal k [] = 0 := rfl

theorem recvTotal_cons (k : String) (s : Settlement) (ss : List Settlement) :
    recvTotal k (s :: ss) = (if s.to_ = k then s.amount else 0) + recvTotal k ss := by
  by_cases h : s.to_ = k
  · simp [recvTotal, List.filter_cons, h]
  · simp [recvTotal, List.filter_cons, h]

theorem recvTotal_nonneg (k : String) (ss : List Settlement)
    (h : ∀ s ∈ ss, 0 ≤ s.amount) : 0 ≤ recvTotal k ss := by
  induction ss with
  | nil => simp [recvTotal_nil]
  | cons s ss ih =>
    rw [recvTotal_cons]
    have hs := h s (List.mem_cons_self _ _)
    have ht := ih (fun q hq => h q (List.mem_cons_of_mem _ hq))
    by_cases hk : s.to_ = k
    · rw [if_pos hk]; linarith
    · rw [if_neg hk]; linarith

theorem recvTotal_eq_zero (k : String) (ss : List Settlement)
    (h : ∀ s ∈ ss, s.to_ ≠ k) : recvTotal k ss = 0 := by
  induction ss with
  | nil => simp [recvTotal_nil]
  | cons s ss ih =>
    rw [recvTotal_cons, if_neg (h s (List.mem_cons_self _ _)),
      ih (fun q hq => h q (List.mem_cons_of_mem _ hq))]
    simp

theorem paysTotal_nil (k : String) : paysTotal k [] = 0 := rfl

theorem paysTotal_cons (k : String) (s : Settlement) (ss : List Settlement) :
    paysTotal k (s :: ss) = (if s.from_ = k then s.amount else 0) + paysTotal k ss := by
  by_cases h : s.from_ = k
  · simp [paysTotal, List.filter_cons, h]
  · simp [paysTotal, List.filter_cons, h]

theorem paysTotal_nonneg (k : String) (ss : List Settlement)
    (h : ∀ s ∈ ss, 0 ≤ s.amount) : 0 ≤ paysTotal k ss := by
  induction ss with
  | nil => simp [paysTotal_nil]
  | cons s ss ih =>
    rw [paysTotal_cons]
    have hs := h s (List.mem_cons_self _ _)
    have ht := ih (fun q hq => h q (List.mem_cons_of_mem _ hq))
    by_cases hk : s.from_ = k
    · rw [if_pos hk]; linarith
    · rw [if_neg hk]; linarith

theorem paysTotal_eq_zero (k : String) (ss : List Settlement)
    (h : ∀ s ∈ ss, s.from_ ≠ k) : paysTotal k ss = 0 := by
  induction ss with
  | nil => simp [paysTotal_nil]
  | cons s ss ih =>
    rw [paysTotal_cons, if_neg (h s (List.mem_cons_self _ _)),
      ih (fun q hq => h q (List.mem_cons_of_mem _ hq))]
    simp

/-- A creditor with loop amount `a` never receives more than `a` in total:
each settlement decrements the creditor counter by exactly the emitted
amount, and skipped iterations only decrement further. -/
theorem settleLoopF_recv_le :
    ∀ (fuel : Nat) (cs ds : List (String × ℚ)) (ss : List Settlement),
      settleLoopF fuel cs ds = some ss →
      (cs.map Prod.fst).Nodup →
      (∀ p ∈ cs, 0 ≤ p.2) → (∀ p ∈ ds, 0 ≤ p.2) →
      ∀ k a, (k, a) ∈ cs → recvTotal k ss ≤ a := by
  intro fuel
  induction fuel with
  | zero =>
    intro cs ds ss h _ hcs _ k a hmem
    rcases cs with _ | ⟨c, cs⟩
    · simp at hmem
    rcases ds with _ | ⟨d, ds⟩
    · simp [settleLoopF] at h
      subst h
      rw [recvTotal_nil]
      exact hcs (k, a) hmem
    simp [settleLoopF] at h
  | succ fuel ih =>
    intro cs ds ss h hnd hcs hds k a hmem
    rcases cs with _ | ⟨c, cs⟩
    · simp at hmem
    rcases ds with _ | ⟨d, ds⟩
    · simp [settleLoopF] at h
      subst h
      rw [recvTotal_nil]
      exact hcs (k, a) hmem
    obtain ⟨c1, cv⟩ := c
    obtain ⟨d1, dv⟩ := d
    simp only [settleLoopF] at h
    have hnd2 : c1 ∉ cs.map Prod.fst ∧ (cs.map Prod.fst).Nodup := by
      rw [List.map_cons] at hnd
      exact List.nodup_cons.1 hnd
    have hcv : (0 : ℚ) ≤ cv := hcs (c1, cv) (List.mem_cons_self _ _)
    have hdv : (0 : ℚ) ≤ dv := hds (d1, dv) (List.mem_cons_self _ _)
    have hmin1 : min cv dv ≤ cv := min_le_left _ _
    have hmin0 : (0 : ℚ) ≤ min cv dv := le_min hcv hdv
    have hcstail : ∀ p ∈ cs, (0 : ℚ) ≤ p.2 :=
      fun p hp => hcs p (List.mem_cons_of_mem _ hp)
    have hds2nn : ∀ p ∈ (if dv - min cv dv < eps then ds
        else (d1, dv - min cv dv) :: ds), (0 : ℚ) ≤ p.2 := by
      intro p hp
      by_cases hd : dv - min cv dv < eps
      · rw [if_pos hd] at hp
        exact hds p (List.mem_cons_of_mem _ hp)
      · rw [if_neg hd] at hp
        rcases List.mem_cons.1 hp with hh | hh
        · rw [hh]
          exact sub_nonneg.mpr (min_le_right cv dv)
        · exact hds p (List.mem_cons_of_mem _ hh)
    have hto : (⟨d1, c1, min cv dv⟩ : Settlement).to_ = c1 := rfl
    have hamt : (⟨d1, c1, min cv dv⟩ : Settlement).amount = min cv dv := rfl
    by_cases hcdrop : cv - min cv dv < eps
    · rw [if_pos hcdrop] at h
      cases hrec : settleLoopF fuel cs
          (if dv - min cv dv < eps then ds else (d1, dv - min cv dv) :: ds) with
      | none => rw [hrec] at h; simp at h
      | some rest =>
        rw [hrec] at h
        simp only [Option.some.injEq] at h
        by_cases hk : k = c1
        · subst hk
          have ha : a = cv := by
            rcases List.mem_cons.1 hmem with hh | hh
            · injection hh with hh1 hh2
            · exact absurd (List.mem_map_of_mem Prod.fst hh) hnd2.1
          have hrest0 : recvTotal k rest = 0 := by
            refine recvTotal_eq_zero k rest ?_
            intro s hs
            obtain ⟨h1, _, _⟩ := settleLoopF_mem fuel _ _ rest hrec s hs
            intro hkk
            exact hnd2.1 (hkk ▸ h1)
          rw [← h, ha]
          by_cases hemit : eps < min cv dv
          · rw [if_pos hemit, recvTotal_cons, hrest0, hto, hamt, if_pos rfl]
            linarith
          · rw [if_neg hemit, hrest0]
            exact hcv
        · have hmem2 : (k, a) ∈ cs := by
            rcases List.mem_cons.1 hmem with hh | hh
            · injection hh with hh1 hh2
              exact absurd hh1 hk
            · exact hh
          have hrest := ih _ _ rest hrec hnd2.2 hcstail hds2nn k a hmem2
          rw [← h]
          by_cases hemit : eps < min cv dv
          · rw [if_pos hemit, recvTotal_cons, hto, if_neg (fun hh => hk hh.symm)]
            linarith
          · rw [if_neg hemit]
            exact hrest
    · rw [if_neg hcdrop] at h
      cases hrec : settleLoopF fuel ((c1, cv - min cv dv) :: cs)
          (if dv - min cv dv < eps then ds else (d1, dv - min cv dv) :: ds) with
      | none => rw [hrec] at h; simp at h
      | some rest =>
        rw [hrec] at h
        simp only [Option.some.injEq] at h
        have hnd3 : (((c1, cv - min cv dv) :: cs).map Prod.fst).Nodup := by
          simpa using hnd
        have hcs3 : ∀ p ∈ (c1, cv - min cv dv) :: cs, (0 : ℚ) ≤ p.2 := by
          intro p hp
          rcases List.mem_cons.1 hp with hh | hh
          · rw [hh]
            exact sub_nonneg.mpr hmin1
          · exact hcstail p hh
        by_cases hk : k = c1
        · subst hk
          have ha : a = cv := by
            rcases List.mem_cons.1 hmem with hh | hh
            · injection hh with hh1 hh2
            · exact absurd (List.mem_map_of_mem Prod.fst hh) hnd2.1
          have hrest := ih _ _ rest hrec hnd3 hcs3 hds2nn k (cv - min cv dv)
            (List.mem_cons_self _ _)
          rw [← h, ha]
          by_cases hemit : eps < min cv dv
          · rw [if_pos hemit, recvTotal_cons, hto, hamt, if_pos rfl]
            linarith
          · rw [if_neg hemit]
            linarith
        · have hmem2 : (k, a) ∈ cs := by
            rcases List.mem_cons.1 hmem with hh | hh
            · injection hh with hh1 hh2
              exact absurd hh1 hk
            · exact hh
          have hrest := ih _ _ rest hrec hnd3 hcs3 hds2nn k a
            (List.mem_cons_of_mem _ hmem2)
          rw [← h]
          by_cases hemit : eps < min cv dv
          · rw [if_pos hemit, recvTotal_cons, hto, if_neg (fun hh => hk hh.symm)]
            linarith
          · rw [if_neg hemit]
            exact hrest

/-- A debtor with loop amount `a` never pays more than `a` in total. -/
theorem settleLoopF_pays_le :
    ∀ (fuel : Nat) (cs ds : List (String × ℚ)) (ss : List Settlement),
      settleLoopF fuel cs ds = some ss →
      (ds.map Prod.fst).Nodup →
      (∀ p ∈ cs, 0 ≤ p.2) → (∀ p ∈ ds, 0 ≤ p.2) →
      ∀ k a, (k, a) ∈ ds → paysTotal k ss ≤ a := by
  intro fuel
  induction fuel with
  | zero =>
    intro cs ds ss h _ _ hds k a hmem
    rcases cs with _ | ⟨c, cs⟩
    · simp [settleLoopF] at h
      subst h
      rw [paysTotal_nil]
      exact hds (k, a) hmem
    rcases ds with _ | ⟨d, ds⟩
    · simp at hmem
    simp [settleLoopF] at h
  | succ fuel ih =>
    intro cs ds ss h hnd hcs hds k a hmem
    rcases cs with _ | ⟨c, cs⟩
    · simp [settleLoopF] at h
      subst h
      rw [paysTotal_nil]
      exact hds (k, a) hmem
    rcases ds with _ | ⟨d, ds⟩
    · simp at hmem
    obtain ⟨c1, cv⟩ := c
    obtain ⟨d1, dv⟩ := d
    simp only [settleLoopF] at h
    have hnd2 : d1 ∉ ds.map Prod.fst ∧ (ds.map Prod.fst).Nodup := by
      rw [List.map_cons] at hnd
      exact List.nodup_cons.1 hnd
    have hcv : (0 : ℚ) ≤ cv := hcs (c1, cv) (List.mem_cons_self _ _)
    have hdv : (0 : ℚ) ≤ dv := hds (d1, dv) (List.mem_cons_self _ _)
    have hmin1 : min cv dv ≤ dv := min_le_right _ _
    have hmin0 : (0 : ℚ) ≤ min cv dv := le_min hcv hdv
    have hdstail : ∀ p ∈ ds, (0 : ℚ) ≤ p.2 :=
      fun p hp => hds p (List.mem_cons_of_mem _ hp)
    have hcs2nn : ∀ p ∈ (if cv - min cv dv < eps then cs
        else (c1, cv - min cv dv) :: cs), (0 : ℚ) ≤ p.2 := by
      intro p hp
      by_cases hc : cv - min cv dv < eps
      · rw [if_pos hc] at hp
        exact hcs p (List.mem_cons_of_mem _ hp)
      · rw [if_neg hc] at hp
        rcases List.mem_cons.1 hp with hh | hh
        · rw [hh]
          exact sub_nonneg.mpr (min_le_left cv dv)
        · exact hcs p (List.mem_cons_of_mem _ hh)
    have hfrom : (⟨d1, c1, min cv dv⟩ : Settlement).from_ = d1 := rfl
    have hamt : (⟨d1, c1, min cv dv⟩ : Settlement).amount = min cv dv := rfl
    by_cases hddrop : dv - min cv dv < eps
    · rw [if_pos hddrop] at h
      cases hrec : settleLoopF fuel
          (if cv - min cv dv < eps then cs else (c1, cv - min cv dv) :: cs) ds with
      | none => rw [hrec] at h; simp at h
      | some rest =>
        rw [hrec] at h
        simp only [Option.some.injEq] at h
        by_cases hk : k = d1
        · subst hk
          have ha : a = dv := by
            rcases List.mem_cons.1 hmem with hh | hh
            · injection hh with hh1 hh2
            · exact absurd (List.mem_map_of_mem Prod.fst hh) hnd2.1
          have hrest0 : paysTotal k rest = 0 := by
            refine paysTotal_eq_zero k rest ?_
            intro s hs
            obtain ⟨_, h2, _⟩ := settleLoopF_mem fuel _ _ rest hrec s hs
            intro hkk
            exact hnd2.1 (hkk ▸ h2)
          rw [← h, ha]
          by_cases hemit : eps < min cv dv
          · rw [if_pos hemit, paysTotal_cons, hrest0, hfrom, hamt, if_pos rfl]
            linarith
          · rw [if_neg hemit, hrest0]
            exact hdv
        · have hmem2 : (k, a) ∈ ds := by
            rcases List.mem_cons.1 hmem with hh | hh
            · injection hh with hh1 hh2
              exact absurd hh1 hk
            · exact hh
          have hrest := ih _ _ rest hrec hnd2.2 hcs2nn hdstail k a hmem2
          rw [← h]
          by_cases hemit : eps < min cv dv
          · rw [if_pos hemit, paysTotal_cons, hfrom, if_neg (fun hh => hk hh.symm)]
            linarith
          · rw [if_neg hemit]
            exact hrest
    · rw [if_neg hddrop] at h
      cases hrec : settleLoopF fuel
          (if cv - min cv dv < eps then cs else (c1, cv - min cv dv) :: cs)
          ((d1, dv - min cv dv) :: ds) with
      | none => rw [hrec] at h; simp at h
      | some rest =>
        rw [hrec] at h
        simp only [Option.some.injEq] at h
        have hnd3 : (((d1, dv - min cv dv) :: ds).map Prod.fst).Nodup := by
          simpa using hnd
        have hds3 : ∀ p ∈ (d1, dv - min cv dv) :: ds, (0 : ℚ) ≤ p.2 := by
          intro p hp
          rcases List.mem_cons.1 hp with hh | hh
          · rw [hh]
            exact sub_nonneg.mpr hmin1
          · exact hdstail p hh
        by_cases hk : k = d1
        · subst hk
          have ha : a = dv := by
            rcases List.mem_cons.1 hmem with hh | hh
            · injection hh with hh1 hh2
            · exact absurd (List.mem_map_of_mem Prod.fst hh) hnd2.1
          have hrest := ih _ _ rest hrec hnd3 hcs2nn hds3 k (dv - min cv dv)
            (List.mem_cons_self _ _)
          rw [← h, ha]
          by_cases hemit : eps < min cv dv
          · rw [if_pos hemit, paysTotal_cons, hfrom, hamt, if_pos rfl]
            linarith
          · rw [if_neg hemit]
            linarith
        · have hmem2 : (k, a) ∈ ds := by
            rcases List.mem_cons.1 hmem with hh | hh
            · injection hh with hh1 hh2
              exact absurd hh1 hk
            · exact hh
          have hrest := ih _ _ rest hrec hnd3 hcs2nn hds3 k a
            (List.mem_cons_of_mem _ hmem2)
          rw [← h]
          by_cases hemit : eps < min cv dv
          · rw [if_pos hemit, paysTotal_cons, hfrom, if_neg (fun hh => hk hh.symm)]
            linarith
          · rw [if_neg hemit]
            exact hrest

/-! ### The stable descending sort -/

theorem insertDesc_perm (p : String × ℚ) (l : List (String × ℚ)) :
    List.Perm (insertDesc p l) (p :: l) := by
  induction l with
  | nil => simp [insertDesc]
  | cons q r ih =>
    by_cases h : q.2 < p.2
    · simp [insertDesc, h]
    · rw [insertDesc, if_neg h]
      exact (List.Perm.cons q ih).trans (List.Perm.swap p q r)

theorem sortDesc_perm (l : List (String × ℚ)) : List.Perm (sortDesc l) l := by
  induction l with
  | nil => simp [sortDesc]
  | cons p r ih =>
    exact (insertDesc_perm p (sortDesc r)).trans (List.Perm.cons p ih)

/-! ### Creditor and debtor extraction -/

theorem mem_creditorsOf_elim (b : BalRec) (k : String) (a : ℚ)
    (h : (k, a) ∈ creditorsOf b) : (k, some a) ∈ b ∧ eps < a := by
  induction b with
  | nil => simp [creditorsOf] at h
  | cons p b ih =>
    obtain ⟨k1, w⟩ := p
    cases w with
    | none =>
      rw [creditorsOf, List.filterMap_cons] at h
      obtain ⟨h1, h2⟩ := ih h
      exact ⟨List.mem_cons_of_mem _ h1, h2⟩
    | some v =>
      rw [creditorsOf, List.filterMap_cons] at h
      by_cases hv : eps < v
      · simp only [if_pos hv] at h
        rcases List.mem_cons.1 h with hh | hh
        · injection hh with hh1 hh2
          subst hh1
          subst hh2
          exact ⟨List.mem_cons_self _ _, hv⟩
        · obtain ⟨h1, h2⟩ := ih hh
          exact ⟨List.mem_cons_of_mem _ h1, h2⟩
      · simp only [if_neg hv] at h
        obtain ⟨h1, h2⟩ := ih h
        exact ⟨List.mem_cons_of_mem _ h1, h2⟩

theorem mem_creditorsOf_intro (b : BalRec) (k : String) (a : ℚ)
    (hmem : (k, some a) ∈ b) (ha : eps < a) : (k, a) ∈ creditorsOf b := by
  induction b with
  | nil => simp at hmem
  | cons p b ih =>
    obtain ⟨k1, w⟩ := p
    rcases List.mem_cons.1 hmem with hh | hh
    · injection hh with hh1 hh2
      subst hh1
      rw [← hh2, creditorsOf, List.filterMap_cons]
      simp only [if_pos ha]
      exact List.mem_cons_self _ _
    · rw [creditorsOf, List.filterMap_cons]
      cases w with
      | none => exact ih hh
      | some v =>
        by_cases hv : eps < v
        · simp only [if_pos hv]
          exact List.mem_cons_of_mem _ (ih hh)
        · simp only [if_neg hv]
          exact ih hh

theorem mem_debtorsOf_elim (b : BalRec) (k : String) (a : ℚ)
    (h : (k, a) ∈ debtorsOf b) : (k, some (-a)) ∈ b ∧ eps < a := by
  induction b with
  | nil => simp [debtorsOf] at h
  | cons p b ih =>
    obtain ⟨k1, w⟩ := p
    cases w with
    | none =>
      rw [debtorsOf, List.filterMap_cons] at h
      obtain ⟨h1, h2⟩ := ih h
      exact ⟨List.mem_cons_of_mem _ h1, h2⟩
    | some v =>
      rw [debtorsOf, List.filterMap_cons] at h
      by_cases hv : v < -eps
      · simp only [if_pos hv] at h
        rcases List.mem_cons.1 h with hh | hh
        · injection hh with hh1 hh2
          subst hh1
          subst hh2
          constructor
          · rw [neg_neg]
            exact List.mem_cons_self _ _
          · linarith
        · obtain ⟨h1, h2⟩ := ih hh
          exact ⟨List.mem_cons_of_mem _ h1, h2⟩
      · simp only [if_neg hv] at h
        obtain ⟨h1, h2⟩ := ih h
        exact ⟨List.mem_cons_of_mem _ h1, h2⟩

theorem mem_debtorsOf_intro (b : BalRec) (k : String) (v : ℚ)
    (hmem : (k, some v) ∈ b) (hv : v < -eps) : (k, -v) ∈ debtorsOf b := by
  induction b with
  | nil => simp at hmem
  | cons p b ih =>
    obtain ⟨k1, w⟩ := p
    rcases List.mem_cons.1 hmem with hh | hh
    · injection hh with hh1 hh2
      subst hh1
      rw [← hh2, debtorsOf, List.filterMap_cons]
      simp only [if_pos hv]
      exact List.mem_cons_self _ _
    · rw [debtorsOf, List.filterMap_cons]
      cases w with
      | none => exact ih hh
      | some w1 =>
        by_cases hw : w1 < -eps
        · simp only [if_pos hw]
          exact List.mem_cons_of_mem _ (ih hh)
        · simp only [if_neg hw]
          exact ih hh

theorem creditorsOf_amount_pos (b : BalRec) : ∀ p ∈ creditorsOf b, eps < p.2 := by
  intro p hp
  obtain ⟨k, a⟩ := p
  exact (mem_creditorsOf_elim b k a hp).2

theorem debtorsOf_amount_pos (b : BalRec) : ∀ p ∈ debtorsOf b, eps < p.2 := by
  intro p hp
  obtain ⟨k, a⟩ := p
  exact (mem_debtorsOf_elim b k a hp).2

theorem creditorsOf_keys_sublist (b : BalRec) :
    List.Sublist ((creditorsOf b).map Prod.fst) (b.map Prod.fst) := by
  induction b with
  | nil => simp [creditorsOf]
  | cons p b ih =>
    obtain ⟨k1, w⟩ := p
    rw [creditorsOf, List.filterMap_cons]
    cases w with
    | none => exact List.Sublist.cons _ ih
    | some v =>
      by_cases hv : eps < v
      · simp only [if_pos hv, List.map_cons]
        exact List.Sublist.cons₂ _ ih
      · simp only [if_neg hv]
        exact List.Sublist.cons _ ih

theorem debtorsOf_keys_sublist (b : BalRec) :
    List.Sublist ((debtorsOf b).map Prod.fst) (b.map Prod.fst) := by
  induction b with
  | nil => simp [debtorsOf]
  | cons p b ih =>
    obtain ⟨k1, w⟩ := p
    rw [debtorsOf, List.filterMap_cons]
    cases w with
    | none => exact List.Sublist.cons _ ih
    | some v =>
      by_cases hv : v < -eps
      · simp only [if_pos hv, List.map_cons]
        exact List.Sublist.cons₂ _ ih
      · simp only [if_neg hv]
        exact List.Sublist.cons _ ih

/-- The loop call inside `calculateSettlements` succeeds with the fuel
`numCreditors + numDebtors`. -/
theorem calculateSettlements_eq (b : BalRec) :
    settleLoopF (numCreditors b + numDebtors b)
      (sortDesc (creditorsOf b)) (sortDesc (debtorsOf b)) =
      some (calculateSettlements b) := by
  have hlen : (sortDesc (creditorsOf b)).length + (sortDesc (debtorsOf b)).length =
      numCreditors b + numDebtors b := by
    rw [(sortDesc_perm (creditorsOf b)).length_eq, (sortDesc_perm (debtorsOf b)).length_eq]
    rfl
  obtain ⟨ss, hss⟩ := Option.isSome_iff_exists.1
    (settleLoopF_isSome (numCreditors b + numDebtors b) _ _ (le_of_eq hlen))
  rw [hss]
  simp only [calculateSettlements]
  rw [hlen, hss]
  rfl

/-! ### Applying settlements to a balances record -/

theorem recLookup_applySettlementsRev (ss : List Settlement) :
    ∀ (b : BalRec) (k : String) (v : ℚ), recLookup b k = some (some v) →
      recLookup (applySettlementsRev b ss) k =
        some (some (v + paysTotal k ss - recvTotal k ss)) := by
  induction ss with
  | nil =>
    intro b k v h
    simp [applySettlementsRev, h, recvTotal_nil, paysTotal_nil]
  | cons s ss ih =>
    intro b k v h
    have hstep : recLookup (recSubAt (recAddAt b s.from_ s.amount) s.to_ s.amount) k =
        some (some (v + (if s.from_ = k then s.amount else 0) -
          (if s.to_ = k then s.amount else 0))) := by
      have h1 : recLookup (recAddAt b s.from_ s.amount) k =
          some (some (v + (if s.from_ = k then s.amount else 0))) := by
        by_cases hf : s.from_ = k
        · subst hf
          rw [recLookup_recAddAt_self]
          simp [jsIndex, h, jsAdd]
        · rw [recLookup_recAddAt_ne _ _ _ _ (fun hh => hf hh.symm), h, if_neg hf]
          simp
      by_cases ht : s.to_ = k
      · subst ht
        rw [recLookup_recSubAt_self]
        simp [jsIndex, h1, jsSub]
      · rw [recLookup_recSubAt_ne _ _ _ _ (fun hh => ht hh.symm), h1, if_neg ht]
        simp
    have hfold : recLookup (applySettlementsRev b (s :: ss)) k =
        recLookup (applySettlementsRev
          (recSubAt (recAddAt b s.from_ s.amount) s.to_ s.amount) ss) k := rfl
    rw [hfold, ih _ k _ hstep, recvTotal_cons, paysTotal_cons]
    have harith : (v + (if s.from_ = k then s.amount else 0) -
          (if s.to_ = k then s.amount else 0)) + paysTotal k ss - recvTotal k ss =
        v + ((if s.from_ = k then s.amount else 0) + paysTotal k ss) -
          ((if s.to_ = k then s.amount else 0) + recvTotal k ss) := by
      ring
    rw [harith]

/-! ### Further helper lemmas -/

theorem debitL_eq_zero_of_not_mem (l : List (String × ℚ)) (k : String)
    (h : k ∉ l.map Prod.fst) : debitL l k = 0 := by
  induction l with
  | nil => simp [debitL]
  | cons p l ih =>
    simp only [List.map_cons, List.mem_cons] at h
    push_neg at h
    have hb : (p.1 == k) = false := by
      simp only [beq_eq_false_iff_ne, ne_eq]
      exact fun hh => h.1 hh.symm
    simp only [debitL, List.filter_cons, hb, Bool.false_eq_true, if_false]
    exact ih h.2

theorem debitL_eq_of_nodup (l : List (String × ℚ)) (k : String)
    (hnd : (l.map Prod.fst).Nodup) : debitL l k = (recLookup l k).getD 0 := by
  induction l with
  | nil => simp [debitL, recLookup]
  | cons p l ih =>
    obtain ⟨a, w⟩ := p
    simp only [List.map_cons, List.nodup_cons] at hnd
    by_cases h : a = k
    · have hb : ((a, w).1 == k) = true := by simp [h]
      have hz : debitL l k = 0 := debitL_eq_zero_of_not_mem l k (h ▸ hnd.1)
      calc debitL ((a, w) :: l) k = w + debitL l k := by
            simp [debitL, List.filter_cons, hb]
        _ = w := by rw [hz]; ring
        _ = (recLookup ((a, w) :: l) k).getD 0 := by simp [recLookup, h]
    · have hb : ((a, w).1 == k) = false := by simp [h]
      calc debitL ((a, w) :: l) k = debitL l k := by
            simp [debitL, List.filter_cons, hb]
        _ = (recLookup l k).getD 0 := ih hnd.2
        _ = (recLookup ((a, w) :: l) k).getD 0 := by simp [recLookup, h]

theorem nodup_keys_foldl_recSet {α β : Type} (g : β → String) (c : α) (l : List β) :
    ∀ acc : List (String × α), (acc.map Prod.fst).Nodup →
      ((l.foldl (fun a x => recSet a (g x) c) acc).map Prod.fst).Nodup := by
  induction l with
  | nil => intro acc h; exact h
  | cons x l ih =>
    intro acc h
    refine ih (recSet acc (g x) c) ?_
    by_cases hm : g x ∈ acc.map Prod.fst
    · rw [map_fst_recSet_of_mem _ _ _ hm]
      exact h
    · rw [recSet_append_of_not_mem _ _ _ hm, List.map_append]
      refine List.Nodup.append h (by simp) ?_
      intro a ha hb
      simp only [List.map_cons, List.map_nil, List.mem_singleton] at hb
      exact hm (hb ▸ ha)

theorem nodup_keys_calculateSplits_equal (e : Expense)
    (he : e.splitType = SplitType.equal) :
    ((calculateSplits e).map Prod.fst).Nodup := by
  have h := nodup_keys_foldl_recSet (fun u : String => u)
    (e.amount / (e.participants.length : ℚ)) e.participants [] (by simp)
  simpa [calculateSplits, he] using h

theorem any_eq_of_perm {α : Type} (p : α → Bool) (l1 l2 : List α)
    (h : List.Perm l1 l2) : l1.any p = l2.any p := by
  cases h1 : l1.any p with
  | true =>
    rw [List.any_eq_true] at h1
    obtain ⟨x, hx, hpx⟩ := h1
    exact (List.any_eq_true.2 ⟨x, h.mem_iff.1 hx, hpx⟩).symm
  | false =>
    cases h2 : l2.any p with
    | false => rfl
    | true =>
      rw [List.any_eq_true] at h2
      obtain ⟨x, hx, hpx⟩ := h2
      have : l1.any p = true := List.any_eq_true.2 ⟨x, h.mem_iff.2 hx, hpx⟩
      rw [h1] at this
      cases this

/-! ### Concrete sample data for counterexamples and witnesses -/

def userA : User := ⟨"A", "A", "red"⟩

def userB : User := ⟨"B", "B", "blue"⟩

def usersAB : List User := [userA, userB]

/-- A well-formed pending equal-split expense: 10 paid by A, shared by A and B. -/
def eAB : Expense :=
  ⟨"e1", "lunch", 10, "A", ["A", "B"], SplitType.equal, none, "2024-01-01",
    ExpenseStatus.pending⟩

/-- A pending equal-split expense whose participants list repeats A. -/
def eDup : Expense :=
  ⟨"e2", "dup", 10, "A", ["A", "A"], SplitType.equal, none, "2024-01-01",
    ExpenseStatus.pending⟩

/-- A settled expense. -/
def eSettled : Expense :=
  ⟨"e3", "old", 999, "B", ["A", "B"], SplitType.equal, none, "2024-01-02",
    ExpenseStatus.settled⟩

/-- A pending equal-split expense with an empty participants list. -/
def eEmptyPart : Expense :=
  ⟨"e4", "empty", 10, "A", [], SplitType.equal, none, "2024-01-03",
    ExpenseStatus.pending⟩

/-- Balances of the two-participant example of the spec. -/
def b500 : BalRec := [("A", some 500), ("B", some (-500))]

/-- Balances summing to zero with one creditor and two participants exactly
at the tolerance: the debtor filter `balance < -0.01` excludes B and C, so
no settlement is emitted and A keeps a balance beyond ε. -/
def bC2 : BalRec :=
  [("A", some (2 / 100)), ("B", some (-(1 / 100))), ("C", some (-(1 / 100)))]

/-- A balances record with no creditor and no debtor. -/
def bZero : BalRec := [("A", some 0)]

/-! ### Claim theorems -/

/-- Claim C4: an expense with status `settled` contributes nothing to
`calculateUserBalances`: the balances computed from a list containing it
equal the balances computed from the same list with it removed, whatever its
amount, payer or split. -/
theorem settled_exclusion (users : List User) (l1 l2 : List Expense) (e : Expense)
    (h : e.status = ExpenseStatus.settled) :
    calculateUserBalances (l1 ++ e :: l2) users =
      calculateUserBalances (l1 ++ l2) users := by
  simp only [calculateUserBalances]
  congr 1
  rw [List.filter_append, List.filter_append, List.filter_cons]
  have hb : (e.status == ExpenseStatus.pending) = false := by
    rw [h]; rfl
  rw [hb]
  simp

theorem settled_exclusion_witness :
    eSettled.status = ExpenseStatus.settled ∧
      calculateUserBalances ([eAB] ++ eSettled :: []) usersAB =
        calculateUserBalances ([eAB] ++ []) usersAB :=
  ⟨rfl, settled_exclusion usersAB [eAB] [] eSettled rfl⟩

/-- Claim C3 (counterexample): for the concrete equal-mode expense with an
empty participants list, `calculateSplits` returns the empty mapping, not a
mapping keyed by the full roster A, B — there is no roster fallback in the
engine (the roster is not even an argument of `calculateSplits`). -/
theorem empty_participants_cex :
    eEmptyPart.splitType = SplitType.equal ∧ eEmptyPart.participants = [] ∧
      calculateSplits eEmptyPart = [] ∧
      (calculateSplits eEmptyPart).map Prod.fst ≠ usersAB.map User.id := by
  refine ⟨rfl, rfl, rfl, ?_⟩
  decide

/-- Claim C3 (amended): for every equal-mode expense whose participants list
is empty, `calculateSplits` returns the empty mapping; the engine performs no
fallback to the roster (a full-roster fallback exists only in the separate UI
display helper, not in the engine). -/
theorem empty_participants_splits (e : Expense)
    (hty : e.splitType = SplitType.equal) (hp : e.participants = []) :
    calculateSplits e = [] := by
  simp [calculateSplits, hty, hp]

theorem empty_participants_splits_witness :
    eEmptyPart.splitType = SplitType.equal ∧ eEmptyPart.participants = [] ∧
      calculateSplits eEmptyPart = [] :=
  ⟨rfl, rfl, empty_participants_splits eEmptyPart rfl rfl⟩

/-- Claim C5: for a pending equal-split expense with a non-empty
participants list of roster members whose payer is among the participants,
every listed participant's share is `amount / n` (with `n` the length of the
participants list), the payer's balance from folding that single expense is
`amount - amount / n`, and every other listed participant's balance is
`-(amount / n)`. -/
theorem equal_split_correctness (users : List User) (e : Expense)
    (hst : e.status = ExpenseStatus.pending)
    (hty : e.splitType = SplitType.equal)
    (_hne : e.participants ≠ [])
    (hsub : ∀ u ∈ e.participants, u ∈ users.map User.id)
    (hpay : e.paidBy ∈ e.participants) :
    (∀ u ∈ e.participants,
        recLookup (calculateSplits e) u =
          some (e.amount / (e.participants.length : ℚ))) ∧
      recLookup (calculateUserBalances [e] users) e.paidBy =
        some (some (e.amount - e.amount / (e.participants.length : ℚ))) ∧
      ∀ u ∈ e.participants, u ≠ e.paidBy →
        recLookup (calculateUserBalances [e] users) u =
          some (some (-(e.amount / (e.participants.length : ℚ)))) := by
  have hsplit : ∀ u ∈ e.participants,
      recLookup (calculateSplits e) u =
        some (e.amount / (e.participants.length : ℚ)) := by
    intro u hu
    rw [recLookup_calculateSplits_equal e hty, if_pos hu]
  have hfilter : [e].filter (fun x => x.status == ExpenseStatus.pending) = [e] := by
    simp [List.filter_cons, hst]
  have hdeb : ∀ u ∈ e.participants,
      debitL (calculateSplits e) u = e.amount / (e.participants.length : ℚ) := by
    intro u hu
    rw [debitL_eq_of_nodup _ _ (nodup_keys_calculateSplits_equal e hty), hsplit u hu]
    rfl
  refine ⟨hsplit, ?_, ?_⟩
  · rw [recLookup_calculateUserBalances, if_pos (hsub _ hpay), hfilter]
    have hnd : netDelta [e] e.paidBy =
        e.amount - e.amount / (e.participants.length : ℚ) := by
      simp only [netDelta, List.map_cons, List.map_nil, List.sum_cons, List.sum_nil,
        add_zero]
      rw [contrib, credit, if_pos rfl, hdeb _ hpay]
    rw [hnd]
  · intro u hu hne2
    rw [recLookup_calculateUserBalances, if_pos (hsub _ hu), hfilter]
    have hnd : netDelta [e] u = -(e.amount / (e.participants.length : ℚ)) := by
      simp only [netDelta, List.map_cons, List.map_nil, List.sum_cons, List.sum_nil,
        add_zero]
      rw [contrib, credit, if_neg (fun hh => hne2 hh.symm), hdeb _ hu]
      ring
    rw [hnd]

theorem equal_split_correctness_witness :
    (eAB.status = ExpenseStatus.pending ∧ eAB.splitType = SplitType.equal ∧
        eAB.participants ≠ [] ∧ (∀ u ∈ eAB.participants, u ∈ usersAB.map User.id) ∧
        eAB.paidBy ∈ eAB.participants) ∧
      ((∀ u ∈ eAB.participants,
          recLookup (calculateSplits eAB) u =
            some (eAB.amount / (eAB.participants.length : ℚ))) ∧
        recLookup (calculateUserBalances [eAB] usersAB) eAB.paidBy =
          some (some (eAB.amount - eAB.amount / (eAB.participants.length : ℚ))) ∧
        ∀ u ∈ eAB.participants, u ≠ eAB.paidBy →
          recLookup (calculateUserBalances [eAB] usersAB) u =
            some (some (-(eAB.amount / (eAB.participants.length : ℚ))))) :=
  ⟨⟨rfl, rfl, by decide, by decide, by decide⟩,
    equal_split_correctness usersAB eAB rfl rfl (by decide) (by decide) (by decide)⟩

/-- Claim C7: two expense lists that are permutations of each other yield
the same balances mapping (pointwise equal lookups, i.e. the same map). -/
theorem balances_perm_invariant (users : List User) (es es2 : List Expense)
    (h : List.Perm es es2) (k : String) :
    recLookup (calculateUserBalances es users) k =
      recLookup (calculateUserBalances es2 users) k := by
  rw [recLookup_calculateUserBalances, recLookup_calculateUserBalances]
  have hpf : List.Perm (es.filter (fun e => e.status == ExpenseStatus.pending))
      (es2.filter (fun e => e.status == ExpenseStatus.pending)) := h.filter _
  have hnd : netDelta (es.filter (fun e => e.status == ExpenseStatus.pending)) k =
      netDelta (es2.filter (fun e => e.status == ExpenseStatus.pending)) k :=
    List.Perm.sum_eq (hpf.map (fun e => contrib e k))
  have hany : (es.filter (fun e => e.status == ExpenseStatus.pending)).any
        (fun e => touchesB e k) =
      (es2.filter (fun e => e.status == ExpenseStatus.pending)).any
        (fun e => touchesB e k) :=
    any_eq_of_perm _ _ _ hpf
  rw [hnd, hany]

theorem balances_perm_invariant_witness :
    List.Perm [eAB, eSettled] [eSettled, eAB] ∧
      recLookup (calculateUserBalances [eAB, eSettled] usersAB) "A" =
        recLookup (calculateUserBalances [eSettled, eAB] usersAB) "A" :=
  ⟨List.Perm.swap eSettled eAB [],
    balances_perm_invariant usersAB _ _ (List.Perm.swap eSettled eAB []) "A"⟩

/-- The side conditions of claim C1, as the claim states them: every payer,
every listed participant and (for custom mode) every custom-split key belongs
to the roster, participants lists are non-empty, and declared custom shares
sum to the expense amount. -/
def rosterConsistent (expenses : List Expense) (users : List User) : Prop :=
  ∀ e ∈ expenses,
    e.paidBy ∈ users.map User.id ∧
      (∀ u ∈ e.participants, u ∈ users.map User.id) ∧
      e.participants ≠ [] ∧
      (e.splitType = SplitType.custom →
        (∀ p ∈ e.customSplits.getD [], p.1 ∈ users.map User.id) ∧
          ((e.customSplits.getD []).map Prod.snd).sum = e.amount)

/-- Claim C1 (counterexample): the expense `eDup` (amount 10 paid by A,
participants list `[A, A]`, equal split) satisfies every side condition of
the claim, yet the balances sum to 5, far beyond ε: the equal-split mapping
collapses the duplicated key to a single share of 5, so only 5 of the 10
credited to the payer is debited back. -/
theorem conservation_cex :
    rosterConsistent [eDup] [userA] ∧
      jsSumValues (calculateUserBalances [eDup] [userA]) = some 5 ∧
      ¬ |(5 : ℚ)| ≤ eps := by
  refine ⟨?_, by decide, by decide⟩
  unfold rosterConsistent
  decide

/-- Claim C1 (amended): under the claim's side conditions plus the extra
condition that no equal-split expense lists the same participant twice, the
values of the balances record returned by `calculateUserBalances` (whose
keys are exactly the roster members) sum to exactly 0. -/
theorem conservation (expenses : List Expense) (users : List User)
    (hr : rosterConsistent expenses users)
    (hnd : ∀ e ∈ expenses, e.splitType = SplitType.equal → e.participants.Nodup) :
    jsSumValues (calculateUserBalances expenses users) = some 0 := by
  have hinitf := finiteVals_initBalances users
  have hhyp : ∀ e ∈ expenses.filter (fun x => x.status == ExpenseStatus.pending),
      e.paidBy ∈ (initBalances users).map Prod.fst ∧
        ∀ p ∈ calculateSplits e, p.1 ∈ (initBalances users).map Prod.fst := by
    intro e he
    have he2 : e ∈ expenses := List.mem_of_mem_filter he
    obtain ⟨hpaid, hpart, hne2, hcust⟩ := hr e he2
    refine ⟨(mem_keys_initBalances users _).2 hpaid, ?_⟩
    intro p hp
    cases hty : e.splitType with
    | equal =>
      have hmemk : p.1 ∈ (calculateSplits e).map Prod.fst :=
        List.mem_map_of_mem Prod.fst hp
      have hppart : p.1 ∈ e.participants :=
        (mem_keys_calculateSplits_equal e hty p.1).1 hmemk
      exact (mem_keys_initBalances users _).2 (hpart _ hppart)
    | custom =>
      rw [calculateSplits_custom e hty] at hp
      exact (mem_keys_initBalances users _).2 ((hcust hty).1 p hp)
  obtain ⟨hk, hf, hsum⟩ := foldl_applyExpense_props
    (expenses.filter (fun x => x.status == ExpenseStatus.pending))
    (initBalances users) hhyp hinitf
  have hzero : ((expenses.filter (fun x => x.status == ExpenseStatus.pending)).map
      (fun e => e.amount - splitsTotal e)).sum = 0 := by
    refine List.sum_eq_zero ?_
    intro x hx
    rcases List.mem_map.1 hx with ⟨e, he, hex⟩
    have he2 : e ∈ expenses := List.mem_of_mem_filter he
    obtain ⟨hpaid, hpart, hne2, hcust⟩ := hr e he2
    rw [← hex]
    cases hty : e.splitType with
    | equal =>
      rw [splitsTotal_equal e hty (hnd e he2 hty) hne2]
      ring
    | custom =>
      have hst : splitsTotal e = e.amount := by
        rw [splitsTotal, calculateSplits_custom e hty]
        exact (hcust hty).2
      rw [hst]
      ring
  have hcub : calculateUserBalances expenses users =
      (expenses.filter (fun x => x.status == ExpenseStatus.pending)).foldl applyExpense
        (initBalances users) := rfl
  rw [hcub, jsSumValues_eq_realSum _ hf, hsum, realSum_initBalances, hzero]
  norm_num

theorem conservation_witness :
    (rosterConsistent [eAB] usersAB ∧
        ∀ e ∈ [eAB], e.splitType = SplitType.equal → e.participants.Nodup) ∧
      jsSumValues (calculateUserBalances [eAB] usersAB) = some 0 :=
  ⟨⟨by unfold rosterConsistent; decide, by decide⟩,
    conservation [eAB] usersAB (by unfold rosterConsistent; decide) (by decide)⟩

/-- Helper: every emitted settlement's amount exceeds ε. -/
theorem amount_pos_of_mem_calculateSettlements (b : BalRec) (s : Settlement)
    (hs : s ∈ calculateSettlements b) : eps < s.amount :=
  (settleLoopF_mem (numCreditors b + numDebtors b) _ _ _
    (calculateSettlements_eq b) s hs).2.2

/-- Claim C6: every settlement emitted by `calculateSettlements` has
`amount > ε = 0.01`, hence in particular `amount > 0`; no zero or negative
transfer is ever emitted. -/
theorem settlements_amount_pos (b : BalRec) (s : Settlement)
    (hs : s ∈ calculateSettlements b) : eps < s.amount ∧ 0 < s.amount := by
  have h := amount_pos_of_mem_calculateSettlements b s hs
  exact ⟨h, lt_trans eps_pos h⟩

theorem settlements_amount_pos_witness :
    (⟨"B", "A", 500⟩ : Settlement) ∈ calculateSettlements b500 ∧
      (eps < (500 : ℚ) ∧ 0 < (500 : ℚ)) :=
  ⟨by decide, settlements_amount_pos b500 ⟨"B", "A", 500⟩ (by decide)⟩

/-- Claim C9: `calculateSettlements` terminates on every input: the matching
loop reaches its exit condition within `numCreditors + numDebtors`
iterations (the fuel is sufficient, never the exhaustion default), and any
larger fuel gives the same result — the loop cannot run forever. -/
theorem settlements_terminate (b : BalRec) :
    settleLoopF (numCreditors b + numDebtors b)
        (sortDesc (creditorsOf b)) (sortDesc (debtorsOf b)) =
      some (calculateSettlements b) ∧
      ∀ fuel, numCreditors b + numDebtors b ≤ fuel →
        settleLoopF fuel (sortDesc (creditorsOf b)) (sortDesc (debtorsOf b)) =
          some (calculateSettlements b) := by
  have hlen : (sortDesc (creditorsOf b)).length + (sortDesc (debtorsOf b)).length =
      numCreditors b + numDebtors b := by
    rw [(sortDesc_perm (creditorsOf b)).length_eq,
      (sortDesc_perm (debtorsOf b)).length_eq]
    rfl
  refine ⟨calculateSettlements_eq b, ?_⟩
  intro fuel hf
  rw [settleLoopF_fuel_irrel fuel _ _ (numCreditors b + numDebtors b)
    (by rw [hlen]; exact hf) (le_of_eq hlen)]
  exact calculateSettlements_eq b

theorem settlements_terminate_witness :
    numCreditors b500 + numDebtors b500 ≤ 5 ∧
      settleLoopF 5 (sortDesc (creditorsOf b500)) (sortDesc (debtorsOf b500)) =
        some (calculateSettlements b500) :=
  ⟨by decide, (settlements_terminate b500).2 5 (by decide)⟩

/-- Claim C8 (counterexample): for a balances record with no creditor and no
debtor the loop emits no settlement, but the claimed bound
`min + max - 1` is `-1`, so the claimed inequality fails. -/
theorem settlement_count_cex :
    numCreditors bZero = 0 ∧ numDebtors bZero = 0 ∧
      calculateSettlements bZero = [] ∧
      ¬ ((calculateSettlements bZero).length : ℤ) ≤
        min (numCreditors bZero : ℤ) (numDebtors bZero : ℤ) +
          max (numCreditors bZero : ℤ) (numDebtors bZero : ℤ) - 1 := by
  refine ⟨rfl, rfl, rfl, ?_⟩
  decide

/-- Claim C8 (amended): whenever at least one participant is a creditor or a
debtor, the number of emitted settlements is at most
`min(numCreditors, numDebtors) + max(numCreditors, numDebtors) - 1`. -/
theorem settlement_count_bound (b : BalRec)
    (h : 1 ≤ numCreditors b + numDebtors b) :
    ((calculateSettlements b).length : ℤ) ≤
      min (numCreditors b : ℤ) (numDebtors b : ℤ) +
        max (numCreditors b : ℤ) (numDebtors b : ℤ) - 1 := by
  have hn := settleLoopF_length (numCreditors b + numDebtors b) _ _ _
    (calculateSettlements_eq b)
  have hlen1 : (sortDesc (creditorsOf b)).length = numCreditors b :=
    (sortDesc_perm (creditorsOf b)).length_eq
  have hlen2 : (sortDesc (debtorsOf b)).length = numDebtors b :=
    (sortDesc_perm (debtorsOf b)).length_eq
  rw [hlen1, hlen2] at hn
  rw [min_add_max]
  omega

theorem settlement_count_bound_witness :
    1 ≤ numCreditors b500 + numDebtors b500 ∧
      ((calculateSettlements b500).length : ℤ) ≤
        min (numCreditors b500 : ℤ) (numDebtors b500 : ℤ) +
          max (numCreditors b500 : ℤ) (numDebtors b500 : ℤ) - 1 :=
  ⟨by decide, settlement_count_bound b500 (by decide)⟩

/-- Claim C10: every emitted settlement moves money between two distinct
participants: its `from` is a key of the input record with balance below
`-ε` and its `to` is a key with balance above `ε`; participants within ε of
zero never appear in a settlement. -/
theorem settlement_endpoints (b : BalRec) (hnd : (b.map Prod.fst).Nodup)
    (s : Settlement) (hs : s ∈ calculateSettlements b) :
    s.from_ ≠ s.to_ ∧
      (∃ v, recLookup b s.from_ = some (some v) ∧ v < -eps) ∧
      ∃ w, recLookup b s.to_ = some (some w) ∧ eps < w := by
  obtain ⟨h1, h2, _⟩ := settleLoopF_mem (numCreditors b + numDebtors b) _ _ _
    (calculateSettlements_eq b) s hs
  have h1c : s.to_ ∈ (creditorsOf b).map Prod.fst :=
    ((sortDesc_perm (creditorsOf b)).map Prod.fst).mem_iff.1 h1
  have h2d : s.from_ ∈ (debtorsOf b).map Prod.fst :=
    ((sortDesc_perm (debtorsOf b)).map Prod.fst).mem_iff.1 h2
  obtain ⟨p, hp, hpe⟩ := List.mem_map.1 h1c
  obtain ⟨q, hq, hqe⟩ := List.mem_map.1 h2d
  obtain ⟨kc, a⟩ := p
  obtain ⟨kd, a2⟩ := q
  have hpe2 : kc = s.to_ := hpe
  have hqe2 : kd = s.from_ := hqe
  obtain ⟨hmemc, hac⟩ := mem_creditorsOf_elim b kc a hp
  obtain ⟨hmemd, had⟩ := mem_debtorsOf_elim b kd a2 hq
  have hlc : recLookup b kc = some (some a) :=
    recLookup_eq_of_mem_nodup b kc _ hnd hmemc
  have hld : recLookup b kd = some (some (-a2)) :=
    recLookup_eq_of_mem_nodup b kd _ hnd hmemd
  refine ⟨?_, ⟨-a2, by rw [← hqe2]; exact hld, by linarith⟩,
    ⟨a, by rw [← hpe2]; exact hlc, hac⟩⟩
  intro heq
  have hta : recLookup b s.to_ = some (some a) := by
    rw [← hpe2]; exact hlc
  have htd : recLookup b s.to_ = some (some (-a2)) := by
    rw [← heq, ← hqe2]; exact hld
  rw [hta] at htd
  simp only [Option.some.injEq] at htd
  have heps : (0 : ℚ) < eps := eps_pos
  linarith [hac, had, htd ▸ hac]

theorem settlement_endpoints_witness :
    ((b500.map Prod.fst).Nodup ∧
        (⟨"B", "A", 500⟩ : Settlement) ∈ calculateSettlements b500) ∧
      ((⟨"B", "A", 500⟩ : Settlement).from_ ≠ (⟨"B", "A", 500⟩ : Settlement).to_ ∧
        (∃ v, recLookup b500 (⟨"B", "A", 500⟩ : Settlement).from_ =
            some (some v) ∧ v < -eps) ∧
        ∃ w, recLookup b500 (⟨"B", "A", 500⟩ : Settlement).to_ =
            some (some w) ∧ eps < w) :=
  ⟨⟨by decide, by decide⟩,
    settlement_endpoints b500 (by decide) ⟨"B", "A", 500⟩ (by decide)⟩

/-- Claim C2 (counterexample, two parts).  First: in `bC2` the values sum to
0 yet B and C sit exactly at `-ε` and are excluded by the strict filter
`balance < -0.01`, so no settlement is emitted and A's balance stays `0.02`,
beyond ε.  Second: even on the textbook two-person example, the claim's
application direction (subtract from `from`, add to `to`) moves balances
away from zero — A ends at 1000, not 0. -/
theorem settlement_correctness_cex :
    jsSumValues bC2 = some 0 ∧
      calculateSettlements bC2 = [] ∧
      recLookup (applySettlementsSpec bC2 (calculateSettlements bC2)) "A" =
        some (some (2 / 100)) ∧
      ¬ |(2 / 100 : ℚ)| ≤ eps ∧
      jsSumValues b500 = some 0 ∧
      calculateSettlements b500 = [⟨"B", "A", 500⟩] ∧
      recLookup (applySettlementsSpec b500 (calculateSettlements b500)) "A" =
        some (some 1000) ∧
      ¬ |(1000 : ℚ)| ≤ eps := by
  exact ⟨by decide, by decide, by decide, by decide, by decide, by decide, by decide,
    by decide⟩

/-- Claim C2 (amended): applying the emitted settlements with the correct
money-flow orientation (the debtor `from` pays, moving their balance up; the
creditor `to` is paid, moving their balance down) never overshoots: every
participant's balance moves weakly toward zero without crossing it, and a
participant within ε of zero is untouched.  The original within-ε conclusion
is false (see the counterexample): residuals beyond ε can remain. -/
theorem settlements_no_overshoot (b : BalRec) (hnd : (b.map Prod.fst).Nodup)
    (k : String) (v : ℚ) (hv : recLookup b k = some (some v)) :
    ∃ w, recLookup (applySettlementsRev b (calculateSettlements b)) k =
        some (some w) ∧
      (0 ≤ v → 0 ≤ w ∧ w ≤ v) ∧ (v ≤ 0 → v ≤ w ∧ w ≤ 0) ∧
      (|v| ≤ eps → w = v) := by
  have heps := eps_pos
  have hset := calculateSettlements_eq b
  have hpos : ∀ s ∈ calculateSettlements b, (0 : ℚ) ≤ s.amount :=
    fun s hs =>
      le_of_lt (lt_trans eps_pos (amount_pos_of_mem_calculateSettlements b s hs))
  have hrecvnn : 0 ≤ recvTotal k (calculateSettlements b) :=
    recvTotal_nonneg _ _ hpos
  have hpaysnn : 0 ≤ paysTotal k (calculateSettlements b) :=
    paysTotal_nonneg _ _ hpos
  have hAR := recLookup_applySettlementsRev (calculateSettlements b) b k v hv
  have hkC : k ∈ (creditorsOf b).map Prod.fst → eps < v := by
    intro hk
    obtain ⟨p, hp, hpe⟩ := List.mem_map.1 hk
    obtain ⟨kc, a⟩ := p
    have hkc : kc = k := hpe
    obtain ⟨hmemc, hac⟩ := mem_creditorsOf_elim b kc a hp
    have hlc : recLookup b kc = some (some a) :=
      recLookup_eq_of_mem_nodup b kc _ hnd hmemc
    rw [hkc, hv] at hlc
    simp only [Option.some.injEq] at hlc
    rw [hlc]
    exact hac
  have hkD : k ∈ (debtorsOf b).map Prod.fst → v < -eps := by
    intro hk
    obtain ⟨p, hp, hpe⟩ := List.mem_map.1 hk
    obtain ⟨kd, a2⟩ := p
    have hkd : kd = k := hpe
    obtain ⟨hmemd, had⟩ := mem_debtorsOf_elim b kd a2 hp
    have hld : recLookup b kd = some (some (-a2)) :=
      recLookup_eq_of_mem_nodup b kd _ hnd hmemd
    rw [hkd, hv] at hld
    simp only [Option.some.injEq] at hld
    rw [hld]
    linarith
  have hrecv0 : ¬ eps < v → recvTotal k (calculateSettlements b) = 0 := by
    intro hnv
    refine recvTotal_eq_zero _ _ ?_
    intro s hs heq
    refine hnv (hkC ?_)
    rw [← heq]
    exact ((sortDesc_perm (creditorsOf b)).map Prod.fst).mem_iff.1
      (settleLoopF_mem _ _ _ _ hset s hs).1
  have hpays0 : ¬ v < -eps → paysTotal k (calculateSettlements b) = 0 := by
    intro hnv
    refine paysTotal_eq_zero _ _ ?_
    intro s hs heq
    refine hnv (hkD ?_)
    rw [← heq]
    exact ((sortDesc_perm (debtorsOf b)).map Prod.fst).mem_iff.1
      (settleLoopF_mem _ _ _ _ hset s hs).2.1
  have hndc : ((sortDesc (creditorsOf b)).map Prod.fst).Nodup := by
    have h1 : ((creditorsOf b).map Prod.fst).Nodup :=
      List.Nodup.sublist (creditorsOf_keys_sublist b) hnd
    exact ((sortDesc_perm (creditorsOf b)).map Prod.fst).nodup_iff.2 h1
  have hndd : ((sortDesc (debtorsOf b)).map Prod.fst).Nodup := by
    have h1 : ((debtorsOf b).map Prod.fst).Nodup :=
      List.Nodup.sublist (debtorsOf_keys_sublist b) hnd
    exact ((sortDesc_perm (debtorsOf b)).map Prod.fst).nodup_iff.2 h1
  have hnnC : ∀ p ∈ sortDesc (creditorsOf b), (0 : ℚ) ≤ p.2 := by
    intro p hp
    exact le_of_lt (lt_trans heps (creditorsOf_amount_pos b p
      ((sortDesc_perm (creditorsOf b)).mem_iff.1 hp)))
  have hnnD : ∀ p ∈ sortDesc (debtorsOf b), (0 : ℚ) ≤ p.2 := by
    intro p hp
    exact le_of_lt (lt_trans heps (debtorsOf_amount_pos b p
      ((sortDesc_perm (debtorsOf b)).mem_iff.1 hp)))
  have hrecv_le : eps < v → recvTotal k (calculateSettlements b) ≤ v := by
    intro hev
    have hmemb : (k, some v) ∈ b := recLookup_mem b k _ hv
    have hcsort : (k, v) ∈ sortDesc (creditorsOf b) :=
      (sortDesc_perm _).mem_iff.2 (mem_creditorsOf_intro b k v hmemb hev)
    exact settleLoopF_recv_le (numCreditors b + numDebtors b) _ _ _ hset hndc
      hnnC hnnD k v hcsort
  have hpays_le : v < -eps → paysTotal k (calculateSettlements b) ≤ -v := by
    intro hdv
    have hmemb : (k, some v) ∈ b := recLookup_mem b k _ hv
    have hdsort : (k, -v) ∈ sortDesc (debtorsOf b) :=
      (sortDesc_perm _).mem_iff.2 (mem_debtorsOf_intro b k v hmemb hdv)
    exact settleLoopF_pays_le (numCreditors b + numDebtors b) _ _ _ hset hndd
      hnnC hnnD k (-v) hdsort
  refine ⟨_, hAR, ?_, ?_, ?_⟩
  · intro h0
    by_cases hev : eps < v
    · have hp0 := hpays0 (by linarith)
      have hrle := hrecv_le hev
      constructor <;> linarith
    · have hp0 := hpays0 (by linarith)
      have hr0 := hrecv0 hev
      constructor <;> linarith
  · intro h0
    by_cases hdv : v < -eps
    · have hr0 := hrecv0 (by linarith)
      have hple := hpays_le hdv
      constructor <;> linarith
    · have hr0 := hrecv0 (by linarith)
      have hp0 := hpays0 hdv
      constructor <;> linarith
  · intro habs
    obtain ⟨h1, h2⟩ := abs_le.1 habs
    have hr0 := hrecv0 (by linarith)
    have hp0 := hpays0 (by linarith)
    rw [hr0, hp0]
    ring

theorem settlements_no_overshoot_witness :
    ((b500.map Prod.fst).Nodup ∧ recLookup b500 "A" = some (some 500)) ∧
      ∃ w, recLookup (applySettlementsRev b500 (calculateSettlements b500)) "A" =
          some (some w) ∧
        ((0 : ℚ) ≤ 500 → 0 ≤ w ∧ w ≤ 500) ∧ ((500 : ℚ) ≤ 0 → 500 ≤ w ∧ w ≤ 0) ∧
        (|(500 : ℚ)| ≤ eps → w = 500) :=
  ⟨⟨by decide, by decide⟩,
    settlements_no_overshoot b500 (by decide) "A" 500 (by decide)⟩

